import Mathlib

/-!
Flat credential store, environment inference and team routing

Shallow embedding of `src/internal/tokens/store.go`.

Modelling conventions.

* A Go `string` holding valid UTF-8 text is a `List Char` (its sequence of runes).
  `strings.Split` on an ASCII separator, `strings.TrimSpace`, `strings.HasPrefix`
  and `strings.ToLower` all act rune-wise on such text.
* `unicode.ToLower` is the ASCII rule on ASCII runes and a look-up in the Unicode
  case tables above U+007F.  The tables are not part of the program, so the
  non-ASCII part is a parameter `caseTable : Char → Char`; every theorem holds for
  every table.
* `os.ReadFile` is modelled by its result: `none` for a read error, `some content`
  otherwise.
* A Go result pair `(TokenInfo, error)` is a Lean pair `TokenInfo × Option LoadError`.
* A slice access is `index`, which is `none` exactly when Go would raise an
  index-out-of-range fault.
-/

namespace Tokens

/-! ## Go library primitives -/

/-- Go `unicode.IsSpace`: the Latin-1 spaces and the runes with the Unicode
White_Space property. -/
def isSpace (c : Char) : Bool :=
  let n := c.toNat
  (9 ≤ n ∧ n ≤ 13) ∨ n = 0x20 ∨ n = 0x85 ∨ n = 0xA0 ∨ n = 0x1680 ∨
  (0x2000 ≤ n ∧ n ≤ 0x200A) ∨ n = 0x2028 ∨ n = 0x2029 ∨ n = 0x202F ∨
  n = 0x205F ∨ n = 0x3000

/-- Go `strings.TrimSpace`: remove leading and trailing white space. -/
def TrimSpace (s : List Char) : List Char :=
  (s.dropWhile isSpace).rdropWhile isSpace

/-- Go `strings.Split(s, sep)` for a one-rune separator.  The result always has at
least one element. -/
def Split (sep : Char) : List Char → List (List Char)
  | [] => [[]]
  | c :: cs =>
    if c = sep then [] :: Split sep cs
    else
      match Split sep cs with
      | [] => [[c]]
      | h :: t => (c :: h) :: t

/-- Go `strings.HasPrefix(s, p)`. -/
def startsWith (s p : List Char) : Bool := p.isPrefixOf s

/-- Go `unicode.ToLower`: ASCII runes by the ASCII rule, all others through the
Unicode case table. -/
def runeToLower (caseTable : Char → Char) (r : Char) : Char :=
  if r.toNat ≤ 0x7F then
    if 'A'.toNat ≤ r.toNat ∧ r.toNat ≤ 'Z'.toNat then Char.ofNat (r.toNat + 32) else r
  else caseTable r

/-- Go `strings.ToLower` on valid UTF-8 text. -/
def ToLower (caseTable : Char → Char) (s : List Char) : List Char :=
  s.map (runeToLower caseTable)

/-- Go slice access `xs[i]`; `none` stands for the index-out-of-range fault. -/
def index {α : Type} (xs : List α) (i : Int) : Option α :=
  if i < 0 then none else xs.get? i.toNat

/-! ## The flat store -/

/-- The record `TokenInfo` of the flat store. -/
structure TokenInfo where
  IbmInstanceID : List Char
  IamToken : List Char
  TeamIDs : List (List Char)
deriving DecidableEq

/-- The zero value `TokenInfo{}`. -/
def TokenInfo.zero : TokenInfo := ⟨[], [], []⟩

/-- The two failures of `LoadForAccount`. -/
inductive LoadError where
  | readFile
  | badFormat
deriving DecidableEq

/-- The loop of `parseSemicolonLine` over the lines: the first trimmed line that is
non-empty and does not start with `#`, or the empty string. -/
def firstDataLine : List (List Char) → List Char
  | [] => []
  | l :: ls =>
    let t := TrimSpace l
    if t ≠ [] ∧ ¬ startsWith t ['#'] then t else firstDataLine ls

/-- The second loop of `parseSemicolonLine`: trim every raw field and keep the
non-empty ones. -/
def keepParts : List (List Char) → List (List Char)
  | [] => []
  | p :: ps =>
    let t := TrimSpace p
    if t ≠ [] then t :: keepParts ps else keepParts ps

/-- Go `parseSemicolonLine`. -/
def parseSemicolonLine (content : List Char) : TokenInfo :=
  let line := firstDataLine (Split '\n' content)
  if line = [] then TokenInfo.zero
  else
    let parts := keepParts (Split ';' line)
    if parts.length < 3 then TokenInfo.zero
    else
      match parts with
      | p0 :: p1 :: rest => ⟨p0, p1, rest⟩
      | _ => TokenInfo.zero

/-- Go `Store.LoadForAccount` of the flat store, as a function of what
`os.ReadFile` returned for `BaseDir/<ibmAccount>/token`. -/
def LoadForAccount (caseTable : Char → Char) (file : Option (List Char)) :
    TokenInfo × Option LoadError :=
  match file with
  | none => (TokenInfo.zero, some LoadError.readFile)
  | some b =>
    let info := parseSemicolonLine b
    if info.IbmInstanceID = [] ∨ info.IamToken = [] ∨ info.TeamIDs.length = 0 then
      (TokenInfo.zero, some LoadError.badFormat)
    else if ¬ startsWith (ToLower caseTable info.IamToken) "bearer ".toList then
      ({ info with IamToken := "Bearer ".toList ++ info.IamToken }, none)
    else (info, none)

/-! ## Regular expressions used by `InferEnv` -/

/-- The fragment of Go regular-expression syntax that the patterns of `InferEnv`
use: the empty expression, the ASCII word boundary, a literal rune, concatenation
and alternation. -/
inductive Regex where
  | empty : Regex
  | wordBoundary : Regex
  | char : Char → Regex
  | seq : Regex → Regex → Regex
  | alt : Regex → Regex → Regex
deriving DecidableEq

/-- The word runes of the regular-expression engine: ASCII letters, digits and the
underscore. -/
def isWordChar (c : Char) : Bool :=
  let n := c.toNat
  ('a'.toNat ≤ n ∧ n ≤ 'z'.toNat) ∨ ('A'.toNat ≤ n ∧ n ≤ 'Z'.toNat) ∨
  ('0'.toNat ≤ n ∧ n ≤ '9'.toNat) ∨ n = '_'.toNat

/-- Whether the rune before the current position is a word rune. -/
def wordBefore : Option Char → Bool
  | none => false
  | some c => isWordChar c

/-- Whether the rune at the current position is a word rune. -/
def wordAfter : List Char → Bool
  | [] => false
  | c :: _ => isWordChar c

/-- The word-boundary assertion at a position, given the previous rune and the
remaining input: exactly one side is a word rune. -/
def atWordBoundary (prev : Option Char) (rest : List Char) : Bool :=
  wordBefore prev != wordAfter rest

/-- All ways a regular expression can match at a position, in the priority order of a
backtracking (leftmost-first) engine.  A position is the previous rune together with
the remaining input. -/
def Regex.run : Regex → Option Char × List Char → List (Option Char × List Char)
  | .empty, st => [st]
  | .wordBoundary, st => if atWordBoundary st.1 st.2 then [st] else []
  | .char c, st =>
    match st.2 with
    | [] => []
    | x :: xs => if x = c then [(some x, xs)] else []
  | .seq a b, st => (a.run st).flatMap (fun st1 => b.run st1)
  | .alt a b, st => a.run st ++ b.run st

/-- Scan of `FindStringIndex`: try every start position from left to right. -/
def findFrom (re : Regex) (i : Nat) (prev : Option Char) : List Char → Option (Nat × Nat)
  | [] =>
    match re.run (prev, []) with
    | [] => none
    | _ :: _ => some (i, i)
  | c :: cs =>
    match re.run (prev, c :: cs) with
    | [] => findFrom re (i + 1) (some c) cs
    | st :: _ => some (i, i + ((c :: cs).length - st.2.length))

/-- Go `(*Regexp).FindStringIndex`: the location of the leftmost match, counted in
runes, or `none` when there is no match. -/
def FindStringIndex (re : Regex) (s : List Char) : Option (Nat × Nat) :=
  findFrom re 0 none s

/-- A literal word as a regular expression. -/
def Regex.lit : List Char → Regex
  | [] => .empty
  | c :: cs => .seq (.char c) (Regex.lit cs)

/-- The alternation `w|v1|...|vn` of literal words. -/
def Regex.oneOf : List Char → List (List Char) → Regex
  | w, [] => Regex.lit w
  | w, v :: vs => .alt (Regex.lit w) (Regex.oneOf v vs)

/-- The compiled form of a pattern `\b(w|v1|...|vn)\b`. -/
def wordPattern (w : List Char) (vs : List (List Char)) : Regex :=
  .seq .wordBoundary (.seq (Regex.oneOf w vs) .wordBoundary)

/-! ## Environment inference and team selection -/

/-- The constants of type `Env`. -/
inductive Env where
  | Unknown
  | Dev
  | Qualif
  | PP
  | Prod
  | DR
deriving DecidableEq

/-- The pattern `\b(production|prod|prd)\b`. -/
def prodPattern : Regex :=
  wordPattern "production".toList ["prod".toList, "prd".toList]

/-- The pattern `\b(pp|preprod|pre-prod|staging|stage)\b`. -/
def ppPattern : Regex :=
  wordPattern "pp".toList ["preprod".toList, "pre-prod".toList, "staging".toList, "stage".toList]

/-- The pattern `\b(qualif|qa|uat|test)\b`. -/
def qualifPattern : Regex :=
  wordPattern "qualif".toList ["qa".toList, "uat".toList, "test".toList]

/-- The pattern `\b(dev|develop|sandbox)\b`. -/
def devPattern : Regex :=
  wordPattern "dev".toList ["develop".toList, "sandbox".toList]

/-- The pattern `\b(dr|disaster|backup)\b`. -/
def drPattern : Regex :=
  wordPattern "dr".toList ["disaster".toList, "backup".toList]

/-- Go `has`: whether the compiled pattern has a match in `s`. -/
def has (s : List Char) (pattern : Regex) : Bool :=
  (FindStringIndex pattern s).isSome

/-- Go `InferEnv`. -/
def InferEnv (caseTable : Char → Char) (instanceOrNamespace codeAP : List Char) : Env :=
  let s := ToLower caseTable (instanceOrNamespace ++ " ".toList ++ codeAP)
  if has s prodPattern then Env.Prod
  else if has s ppPattern then Env.PP
  else if has s qualifPattern then Env.Qualif
  else if has s devPattern then Env.Dev
  else if has s drPattern then Env.DR
  else Env.Unknown

/-- The map `order` of `TeamIDAuto`; `none` when the key is absent. -/
def order : Env → Option Int
  | Env.Dev => some 0
  | Env.Qualif => some 1
  | Env.PP => some 2
  | Env.Prod => some 3
  | Env.DR => some 4
  | Env.Unknown => none

/-- The fallback part of `TeamIDAuto`, after the mapped position was not used. -/
def fallbackTeam (t : TokenInfo) (defaultIndex : Int) : Option (List Char × Env) :=
  let d1 := if defaultIndex < 0 then 0 else defaultIndex
  let d2 := if d1 ≥ (t.TeamIDs.length : Int) then 0 else d1
  if t.TeamIDs.length > 0 then
    (index t.TeamIDs d2).map (fun id => (id, Env.Unknown))
  else some ([], Env.Unknown)

/-- Go `TokenInfo.TeamIDAuto`.  The result is `none` exactly when a slice access
would be out of range. -/
def TokenInfo.TeamIDAuto (caseTable : Char → Char) (t : TokenInfo)
    (instanceOrNamespace codeAP : List Char) (defaultIndex : Int) :
    Option (List Char × Env) :=
  let env := InferEnv caseTable instanceOrNamespace codeAP
  match order env with
  | some idx =>
    if idx ≥ 0 ∧ idx < (t.TeamIDs.length : Int) then
      (index t.TeamIDs idx).map (fun id => (id, env))
    else fallbackTeam t defaultIndex
  | none => fallbackTeam t defaultIndex

/-! ## Notions of the specification -/

/-- A line that the scan for the data line passes over: blank after trimming, or
beginning with the comment marker `#` after trimming. -/
def Skipped (l : List Char) : Prop :=
  TrimSpace l = [] ∨ (TrimSpace l).head? = some '#'

instance (l : List Char) : Decidable (Skipped l) := by
  unfold Skipped; exact inferInstance

/-- The content has no data line: every line is blank or a comment. -/
def NoDataLine (content : List Char) : Prop :=
  ∀ l ∈ Split '\n' content, Skipped l

/-- The line `l` is the data line of the content: the first line that is neither blank
nor a comment. -/
def IsDataLine (content l : List Char) : Prop :=
  ∃ pre post, Split '\n' content = pre ++ l :: post ∧ (∀ x ∈ pre, Skipped x) ∧ ¬ Skipped l

/-- The semicolon-delimited fields of a line that are non-empty after trimming, each
trimmed, in order. -/
def fieldsOf (l : List Char) : List (List Char) :=
  ((Split ';' (TrimSpace l)).map TrimSpace).filter (fun f => f ≠ [])

/-- A credential carries the scheme prefix, compared without regard to case. -/
def HasBearer (caseTable : Char → Char) (c : List Char) : Prop :=
  startsWith (ToLower caseTable c) "bearer ".toList = true

instance (caseTable : Char → Char) (c : List Char) : Decidable (HasBearer caseTable c) := by
  unfold HasBearer; exact inferInstance

/-- The credential with the scheme prefix put in front when it is absent. -/
def withBearer (caseTable : Char → Char) (c : List Char) : List Char :=
  if startsWith (ToLower caseTable c) "bearer ".toList then c else "Bearer ".toList ++ c

/-- Several lines, each followed by a line break, put in front of a content. -/
def prependLines (ls : List (List Char)) (content : List Char) : List Char :=
  ls.foldr (fun l acc => l ++ '\n' :: acc) content

/-- A string that is non-empty and has no white space at either end. -/
def Trimmed (t : List Char) : Prop :=
  t ≠ [] ∧ (∀ c, t.head? = some c → isSpace c = false) ∧
    (∀ c, t.getLast? = some c → isSpace c = false)

/-- A fully valid record of the flat store. -/
def Valid (caseTable : Char → Char) (r : TokenInfo) : Prop :=
  r.IbmInstanceID ≠ [] ∧ HasBearer caseTable r.IamToken ∧ r.TeamIDs ≠ [] ∧
    ∀ t ∈ r.TeamIDs, Trimmed t

/-- The convention of the specification for positions in the team list: DEV at 0,
QUALIF at 1, PREPROD at 2, PROD at 3 and DISASTER_RECOVERY at 4. -/
def envPositions : List Env := [Env.Dev, Env.Qualif, Env.PP, Env.Prod, Env.DR]

/-- A table that leaves every rune unchanged.  It is only consulted for runes above
U+007F, so on ASCII text every case table gives the same result as this one. -/
def plainTable : Char → Char := fun c => c

/-- A whole-word occurrence of the keyword `kw` in the text `s`: the keyword occurs in
the text, and neither the rune just before the occurrence nor the rune just after it,
when there is one, is a word rune. -/
def WholeWord (s kw : List Char) : Prop :=
  ∃ pre post, s = pre ++ kw ++ post ∧
    (∀ c, pre.getLast? = some c → isWordChar c = false) ∧
    (∀ c, post.head? = some c → isWordChar c = false)

/-- Some keyword of the set has a whole-word occurrence in the text. -/
def MatchesAny (s : List Char) (kws : List (List Char)) : Prop :=
  ∃ kw ∈ kws, WholeWord s kw

/-- The keyword set of PROD in the specification. -/
def prodWords : List (List Char) := ["production".toList, "prod".toList, "prd".toList]

/-- The keyword set of PREPROD in the specification. -/
def ppWords : List (List Char) :=
  ["pp".toList, "preprod".toList, "pre-prod".toList, "staging".toList, "stage".toList]

/-- The keyword set of QUALIF in the specification. -/
def qualifWords : List (List Char) :=
  ["qualif".toList, "qa".toList, "uat".toList, "test".toList]

/-- The keyword set of DEV in the specification. -/
def devWords : List (List Char) := ["dev".toList, "develop".toList, "sandbox".toList]

/-- The keyword set of DISASTER_RECOVERY in the specification. -/
def drWords : List (List Char) := ["dr".toList, "disaster".toList, "backup".toList]

/-- The categories of the specification with their keyword sets, in priority order. -/
def categories : List (Env × List (List Char)) :=
  [(Env.Prod, prodWords), (Env.PP, ppWords), (Env.Qualif, qualifWords),
    (Env.Dev, devWords), (Env.DR, drWords)]

/-- The environment `e` is the first category of the list whose keyword set matches the
text, or UNKNOWN when no category matches. -/
def FirstMatch (text : List Char) : List (Env × List (List Char)) → Env → Prop
  | [], e => e = Env.Unknown
  | c :: cs, e => (MatchesAny text c.2 ∧ e = c.1) ∨ (¬ MatchesAny text c.2 ∧ FirstMatch text cs e)

/-- A keyword that begins and ends with a word rune. -/
def ProperWord (kw : List Char) : Prop :=
  wordAfter kw = true ∧ wordBefore kw.getLast? = true

instance (kw : List Char) : Decidable (ProperWord kw) := by
  unfold ProperWord; exact inferInstance

/-- The rune before the position reached by reading `w` from a position whose previous
rune is `prev`. -/
def endPrev (prev : Option Char) (w : List Char) : Option Char :=
  match w.getLast? with
  | some c => some c
  | none => prev

end Tokens

/-!
The JSON credential store

Shallow embedding of `src/Store.go`.

* The decoder of `encoding/json` is not part of the program; its two uses are the
  parameter `JsonDecoder`: `object b` is the token that `json.Unmarshal(b, &tok)`
  fills in when it returns no error, `list b` the slice that `json.Unmarshal(b, &toks)`
  fills in when it returns no error.
* The directory of the store is the parameter `Dir`: `readFile name` is the result of
  `os.ReadFile(filepath.Join(s.dir, name))` and `readDir` the result of
  `os.ReadDir(s.dir)`, with `none` for an error.
* The cache maps a key to the token stored under it; `none` covers both an absent key
  and a nil pointer, which the program treats alike.
* `LoadForAccount` returns its Go result pair together with the store after the call.
-/

namespace JsonStore

open Tokens

/-- Go constant `defaultOpsIndex`. -/
def defaultOpsIndex : Int := 3

/-- Go struct `Token`. -/
structure Token where
  IbmAccount : List Char
  IamToken : List Char
  IbmInstanceID : List Char
  TeamIDs : List (List Char)
deriving DecidableEq

/-- The zero value `Token{}`. -/
def Token.zero : Token := ⟨[], [], [], []⟩

/-- The two uses of the decoder of `encoding/json`. -/
structure JsonDecoder where
  object : List Char → Option Token
  list : List Char → Option (List Token)

/-- An entry of a directory listing. -/
structure DirEntry where
  Name : List Char
  IsDir : Bool
deriving DecidableEq

/-- The directory of the store, as the program reads it. -/
structure Dir where
  readFile : List Char → Option (List Char)
  readDir : Option (List DirEntry)

/-- Go struct `Store`: the cache, keyed by account. -/
structure Store where
  cache : List Char → Option Token

/-- Go `NewStore`: the empty cache. -/
def NewStore : Store := ⟨fun _ => none⟩

/-- The assignment `s.cache[key] = tok`. -/
def Store.put (s : Store) (key : List Char) (tok : Token) : Store :=
  ⟨fun k => if k = key then some tok else s.cache k⟩

/-- Failures of `readTokenFile`. -/
inductive ReadError where
  | readFile
  | emptyToken
  | invalidJson
deriving DecidableEq

/-- Failures of `LoadForAccount`. -/
inductive LoadError where
  | emptyAccount
  | readDir
  | notFound
deriving DecidableEq

/-- Failures of `Token.TeamIDAuto`. -/
inductive TeamError where
  | noTeamIDs
  | blankTeamIDs
deriving DecidableEq

/-- Go `strings.HasSuffix(s, p)`. -/
def endsWith (s p : List Char) : Bool := p.isSuffixOf s

/-- Go `trimBOMAndSpace`: drop a leading byte-order mark, then trim white space. -/
def trimBOMAndSpace (b : List Char) : List Char :=
  match b with
  | c :: cs => if c = Char.ofNat 0xFEFF then TrimSpace cs else TrimSpace b
  | [] => TrimSpace b

/-- Go `readTokenFile`. -/
def readTokenFile (json : JsonDecoder) (d : Dir) (path : List Char) : Except ReadError Token :=
  match d.readFile path with
  | none => .error ReadError.readFile
  | some b0 =>
    let b := trimBOMAndSpace b0
    match json.object b with
    | some tok =>
      if tok.IamToken = [] ∧ tok.IbmInstanceID = [] ∧ tok.IbmAccount = [] ∧
          tok.TeamIDs.length = 0 then
        .error ReadError.emptyToken
      else .ok tok
    | none =>
      match json.list b with
      | some (t :: _) => .ok t
      | _ => .error ReadError.invalidJson

/-- The three direct file names tried by `LoadForAccount`. -/
def candidates (ibmAccount : List Char) : List (List Char) :=
  [ibmAccount ++ ".json".toList,
   "ibmAccount-".toList ++ ibmAccount ++ ".json".toList,
   "token-".toList ++ ibmAccount ++ ".json".toList]

/-- The loop of `LoadForAccount` over the direct names: the first token accepted. -/
def tryCandidates (json : JsonDecoder) (d : Dir) (ibmAccount : List Char) :
    List (List Char) → Option Token
  | [] => none
  | p :: ps =>
    match readTokenFile json d p with
    | .ok tok =>
      let tok1 := if tok.IbmAccount = [] then { tok with IbmAccount := ibmAccount } else tok
      if tok1.IbmAccount = ibmAccount then some tok1
      else tryCandidates json d ibmAccount ps
    | .error _ => tryCandidates json d ibmAccount ps

/-- The loop of `LoadForAccount` over the directory entries: the first token
accepted. -/
def scanEntries (caseTable : Char → Char) (json : JsonDecoder) (d : Dir)
    (ibmAccount : List Char) : List DirEntry → Option Token
  | [] => none
  | e :: es =>
    if e.IsDir then scanEntries caseTable json d ibmAccount es
    else if ¬ endsWith (ToLower caseTable e.Name) ".json".toList then
      scanEntries caseTable json d ibmAccount es
    else
      match readTokenFile json d e.Name with
      | .error _ => scanEntries caseTable json d ibmAccount es
      | .ok tok =>
        if TrimSpace tok.IbmAccount = ibmAccount then some tok
        else scanEntries caseTable json d ibmAccount es

/-- Go `Store.LoadForAccount` of the JSON store. -/
def LoadForAccount (caseTable : Char → Char) (json : JsonDecoder) (d : Dir) (s : Store)
    (ibmAccount0 : List Char) : (Option Token × Option LoadError) × Store :=
  let ibmAccount := TrimSpace ibmAccount0
  if ibmAccount = [] then ((none, some LoadError.emptyAccount), s)
  else
    match s.cache ibmAccount with
    | some tok => ((some tok, none), s)
    | none =>
      match tryCandidates json d ibmAccount (candidates ibmAccount) with
      | some tok => ((some tok, none), s.put ibmAccount tok)
      | none =>
        match d.readDir with
        | none => ((none, some LoadError.readDir), s)
        | some entries =>
          match scanEntries caseTable json d ibmAccount entries with
          | some tok => ((some tok, none), s.put ibmAccount tok)
          | none => ((none, some LoadError.notFound), s)

/-- The part of `Token.TeamIDAuto` after the preferred index: fall back to index 0. -/
def teamAtZero (t : Token) : Option (List Char × Option TeamError) :=
  match index t.TeamIDs 0 with
  | none => none
  | some x =>
    if TrimSpace x ≠ [] then some (TrimSpace x, none)
    else some ([], some TeamError.blankTeamIDs)

/-- Go `Token.TeamIDAuto`.  The result is `none` exactly when a slice access would be
out of range. -/
def Token.TeamIDAuto (t : Token) : Option (List Char × Option TeamError) :=
  if t.TeamIDs.length = 0 then some ([], some TeamError.noTeamIDs)
  else if (t.TeamIDs.length : Int) > defaultOpsIndex then
    match index t.TeamIDs defaultOpsIndex with
    | none => none
    | some x => if TrimSpace x ≠ [] then some (TrimSpace x, none) else teamAtZero t
  else teamAtZero t

/-! ## Notions of the specification for the JSON store -/

/-- Every token in the cache is stored under the trimmed form of its account, and no
key is empty.  It holds for the new store and every call of `LoadForAccount` keeps
it. -/
def WellKeyed (s : Store) : Prop :=
  ∀ k tok, s.cache k = some tok → TrimSpace tok.IbmAccount = k ∧ k ≠ []

/-- An account identifier that is empty or consists of white space only. -/
def Blank (a : List Char) : Prop := ∀ c ∈ a, isSpace c = true

instance (a : List Char) : Decidable (Blank a) := by
  unfold Blank; exact inferInstance

/-- All four fields of the token are empty. -/
def AllEmpty (t : Token) : Prop :=
  t.IbmAccount = [] ∧ t.IamToken = [] ∧ t.IbmInstanceID = [] ∧ t.TeamIDs = []

instance (t : Token) : Decidable (AllEmpty t) := by
  unfold AllEmpty; exact inferInstance

/-- All four fields of the token are populated. -/
def Populated (t : Token) : Prop :=
  t.IbmAccount ≠ [] ∧ t.IamToken ≠ [] ∧ t.IbmInstanceID ≠ [] ∧ t.TeamIDs ≠ []

/-- The directory entry qualifies for the account in the scan with token `tok`: it is
not a directory, its name ends in `.json` without regard to case, it parses to `tok`,
and the account of `tok` is the requested one after trimming. -/
def Qualifies (caseTable : Char → Char) (json : JsonDecoder) (d : Dir) (a : List Char)
    (e : DirEntry) (tok : Token) : Prop :=
  e.IsDir = false ∧ endsWith (ToLower caseTable e.Name) ".json".toList = true ∧
    readTokenFile json d e.Name = .ok tok ∧ TrimSpace tok.IbmAccount = a

/-- No direct-name candidate is accepted for the account: each of the three files fails
to parse or carries another, non-empty account. -/
def NoCandidate (json : JsonDecoder) (d : Dir) (a : List Char) : Prop :=
  ∀ p ∈ candidates a, ∀ tok, readTokenFile json d p = .ok tok →
    tok.IbmAccount ≠ [] ∧ tok.IbmAccount ≠ a

/-- Whether the scan passes over the entry for the account: a directory, a name without
the extension, a file that does not parse, or a file of another account. -/
def passesOver (caseTable : Char → Char) (json : JsonDecoder) (d : Dir) (a : List Char)
    (e : DirEntry) : Bool :=
  e.IsDir || !endsWith (ToLower caseTable e.Name) ".json".toList ||
    match readTokenFile json d e.Name with
    | .error _ => true
    | .ok tok => decide (TrimSpace tok.IbmAccount ≠ a)

/-- Whether the direct name is not accepted for the account: the file does not parse, or
it carries another, non-empty account. -/
def notAccepted (json : JsonDecoder) (d : Dir) (a p : List Char) : Bool :=
  match readTokenFile json d p with
  | .error _ => true
  | .ok tok => decide (tok.IbmAccount ≠ [] ∧ tok.IbmAccount ≠ a)

/-- The document `[{}]`. -/
def docEmptyList : List Char := "[\x7b\x7d]".toList

/-- The document `{"iamToken":"x"}`. -/
def docTokenOnly : List Char := "\x7b\"iamToken\":\"x\"\x7d".toList

/-- The document `{"ibmAccount":" acc ","iamToken":"x"}`. -/
def docPadded : List Char := "\x7b\"ibmAccount\":\" acc \",\"iamToken\":\"x\"\x7d".toList

/-- The document `{"ibmAccount":"acc","iamToken":"x","ibmInstanceID":"i","teamIDs":["a"]}`. -/
def docFull : List Char :=
  "\x7b\"ibmAccount\":\"acc\",\"iamToken\":\"x\",\"ibmInstanceID\":\"i\",\"teamIDs\":[\"a\"]\x7d".toList

/-- A decoder table that agrees with `encoding/json` on the four documents above and
reports a decoding error for every other document.  It serves to exhibit concrete
runs. -/
def sampleJson : JsonDecoder where
  object := fun b =>
    if b = docTokenOnly then some ⟨[], "x".toList, [], []⟩
    else if b = docPadded then some ⟨" acc ".toList, "x".toList, [], []⟩
    else if b = docFull then some ⟨"acc".toList, "x".toList, "i".toList, ["a".toList]⟩
    else none
  list := fun b => if b = docEmptyList then some [Token.zero] else none

/-- A directory that holds one file, and lists it. -/
def oneFileDir (name content : List Char) : Dir where
  readFile := fun p => if p = name then some content else none
  readDir := some [⟨name, false⟩]

/-- A directory without any direct name for `acc`: a subdirectory, a text file, a file
that is not JSON, and a file `x.JSON` holding the account ` acc ` with padding. -/
def scanDir : Dir where
  readFile := fun p =>
    if p = "x.JSON".toList then some docPadded
    else if p = "bad.json".toList then some "oops".toList
    else if p = "notes.txt".toList then some docFull
    else none
  readDir := some [⟨"sub.json".toList, true⟩, ⟨"notes.txt".toList, false⟩,
    ⟨"bad.json".toList, false⟩, ⟨"x.JSON".toList, false⟩, ⟨"y.json".toList, false⟩]

end JsonStore

namespace Tokens

/-! ## Lemmas on the string primitives -/

theorem Split_ne_nil (sep : Char) (s : List Char) : Split sep s ≠ [] := by
  induction s with
  | nil => simp [Split]
  | cons c cs ih =>
    simp only [Split]
    split
    · simp
    · split <;> simp

theorem Split_append_sep (sep : Char) (l rest : List Char) (h : sep ∉ l) :
    Split sep (l ++ sep :: rest) = l :: Split sep rest := by
  induction l with
  | nil => simp [Split]
  | cons c cs ih =>
    have hc : c ≠ sep := fun e => h (by simp [e])
    have h2 : sep ∉ cs := fun e => h (by simp [e])
    simp [Split, hc, ih h2]

theorem startsWith_hash (t : List Char) :
    startsWith t ['#'] = true ↔ t.head? = some '#' := by
  cases t with
  | nil => simp [startsWith]
  | cons c cs =>
    simp only [startsWith, List.isPrefixOf, Bool.and_true, beq_iff_eq, List.head?_cons,
      Option.some.injEq]
    exact eq_comm

theorem firstDataLine_skip (l : List Char) (ls : List (List Char)) (h : Skipped l) :
    firstDataLine (l :: ls) = firstDataLine ls := by
  unfold Skipped at h
  rw [← startsWith_hash] at h
  simp only [firstDataLine]
  rcases h with h | h <;> simp [h]

theorem firstDataLine_take (l : List Char) (ls : List (List Char)) (h : ¬ Skipped l) :
    firstDataLine (l :: ls) = TrimSpace l := by
  unfold Skipped at h
  rw [← startsWith_hash] at h
  simp only [not_or] at h
  simp [firstDataLine, h.1, h.2]

theorem firstDataLine_of_data (pre post : List (List Char)) (l : List Char)
    (hpre : ∀ x ∈ pre, Skipped x) (hl : ¬ Skipped l) :
    firstDataLine (pre ++ l :: post) = TrimSpace l := by
  induction pre with
  | nil => exact firstDataLine_take l post hl
  | cons x xs ih =>
    rw [List.cons_append, firstDataLine_skip x _ (hpre x (by simp))]
    exact ih (fun y hy => hpre y (by simp [hy]))

theorem firstDataLine_none (ls : List (List Char)) (h : ∀ x ∈ ls, Skipped x) :
    firstDataLine ls = [] := by
  induction ls with
  | nil => rfl
  | cons x xs ih =>
    rw [firstDataLine_skip x _ (h x (by simp))]
    exact ih (fun y hy => h y (by simp [hy]))

theorem trim_ne_nil_of_not_skipped (l : List Char) (h : ¬ Skipped l) : TrimSpace l ≠ [] :=
  fun e => h (Or.inl e)

/-- Either every line is skipped, or the lines split at a first data line. -/
theorem lines_cases (ls : List (List Char)) :
    (∀ x ∈ ls, Skipped x) ∨
    ∃ pre l post, ls = pre ++ l :: post ∧ (∀ x ∈ pre, Skipped x) ∧ ¬ Skipped l := by
  induction ls with
  | nil => left; simp
  | cons x xs ih =>
    by_cases hx : Skipped x
    · rcases ih with h | ⟨pre, l, post, e, hp, hl⟩
      · left
        intro y hy
        rcases List.mem_cons.1 hy with rfl | hy
        · exact hx
        · exact h y hy
      · right
        refine ⟨x :: pre, l, post, by simp [e], ?_, hl⟩
        intro y hy
        rcases List.mem_cons.1 hy with rfl | hy
        · exact hx
        · exact hp y hy
    · right
      exact ⟨[], x, xs, rfl, by simp, hx⟩

theorem keepParts_eq (ps : List (List Char)) :
    keepParts ps = (ps.map TrimSpace).filter (fun f => f ≠ []) := by
  induction ps with
  | nil => rfl
  | cons p ps ih =>
    simp only [keepParts, List.map_cons, List.filter_cons]
    by_cases h : TrimSpace p = [] <;> simp [h, ih]

theorem parse_of_data (content l : List Char) (h : IsDataLine content l) :
    parseSemicolonLine content =
      match fieldsOf l with
      | p0 :: p1 :: p2 :: rest => ⟨p0, p1, p2 :: rest⟩
      | _ => TokenInfo.zero := by
  obtain ⟨pre, post, e, hp, hl⟩ := h
  have h1 : firstDataLine (Split '\n' content) = TrimSpace l := by
    rw [e]; exact firstDataLine_of_data pre post l hp hl
  have h2 := trim_ne_nil_of_not_skipped l hl
  simp only [parseSemicolonLine, h1, h2, if_false, keepParts_eq]
  unfold fieldsOf
  rcases hf : List.filter (fun f => decide (f ≠ [])) (List.map TrimSpace (Split ';' (TrimSpace l)))
    with _ | ⟨a, _ | ⟨b, _ | ⟨c, r⟩⟩⟩ <;> simp

theorem parse_of_none (content : List Char) (h : NoDataLine content) :
    parseSemicolonLine content = TokenInfo.zero := by
  simp [parseSemicolonLine, firstDataLine_none _ h]

theorem data_cases (content : List Char) :
    NoDataLine content ∨ ∃ l, IsDataLine content l := by
  rcases lines_cases (Split '\n' content) with h | ⟨pre, l, post, e, hp, hl⟩
  · exact Or.inl h
  · exact Or.inr ⟨l, pre, post, e, hp, hl⟩

theorem mem_fieldsOf {l f : List Char} (h : f ∈ fieldsOf l) :
    f ≠ [] ∧ ∃ x, f = TrimSpace x := by
  unfold fieldsOf at h
  rw [List.mem_filter, List.mem_map] at h
  obtain ⟨⟨x, _, hx⟩, hne⟩ := h
  exact ⟨by simpa using hne, x, hx.symm⟩

theorem startsWith_append (p x : List Char) : startsWith (p ++ x) p = true := by
  induction p with
  | nil => simp [startsWith, List.isPrefixOf]
  | cons c cs ih =>
    simp only [startsWith] at ih
    simp [startsWith, List.isPrefixOf, ih]

theorem ToLower_bearer (caseTable : Char → Char) (c : List Char) :
    ToLower caseTable ("Bearer ".toList ++ c) = "bearer ".toList ++ ToLower caseTable c := by
  unfold ToLower
  rw [List.map_append]
  rfl

theorem hasBearer_withBearer (caseTable : Char → Char) (c : List Char) :
    HasBearer caseTable (withBearer caseTable c) := by
  unfold withBearer HasBearer
  split
  · assumption
  · rw [ToLower_bearer]
    exact startsWith_append _ _

theorem load_eq (caseTable : Char → Char) (content : List Char) :
    LoadForAccount caseTable (some content) =
      if (parseSemicolonLine content).IbmInstanceID = [] ∨
          (parseSemicolonLine content).IamToken = [] ∨
          (parseSemicolonLine content).TeamIDs = [] then
        (TokenInfo.zero, some LoadError.badFormat)
      else
        ({ parseSemicolonLine content with
            IamToken := withBearer caseTable (parseSemicolonLine content).IamToken }, none) := by
  simp only [LoadForAccount, withBearer, List.length_eq_zero]
  split
  · rfl
  · split <;> simp_all

theorem load_of_fields (caseTable : Char → Char) (content l f1 f2 f3 : List Char)
    (fs : List (List Char)) (h : IsDataLine content l)
    (hf : fieldsOf l = f1 :: f2 :: f3 :: fs) :
    LoadForAccount caseTable (some content) =
      (⟨f1, withBearer caseTable f2, f3 :: fs⟩, none) := by
  have h1 : f1 ≠ [] := (mem_fieldsOf (l := l) (by rw [hf]; simp)).1
  have h2 : f2 ≠ [] := (mem_fieldsOf (l := l) (by rw [hf]; simp)).1
  rw [load_eq, parse_of_data content l h, hf]
  simp [h1, h2]

theorem load_of_few (caseTable : Char → Char) (content l : List Char)
    (h : IsDataLine content l) (hf : (fieldsOf l).length < 3) :
    LoadForAccount caseTable (some content) = (TokenInfo.zero, some LoadError.badFormat) := by
  rw [load_eq, parse_of_data content l h]
  rcases hq : fieldsOf l with _ | ⟨a, _ | ⟨b, _ | ⟨c, r⟩⟩⟩
  · simp [TokenInfo.zero]
  · simp [TokenInfo.zero]
  · simp [TokenInfo.zero]
  · rw [hq] at hf
    simp only [List.length_cons] at hf
    omega

theorem load_of_none (caseTable : Char → Char) (content : List Char)
    (h : NoDataLine content) :
    LoadForAccount caseTable (some content) = (TokenInfo.zero, some LoadError.badFormat) := by
  rw [load_eq, parse_of_none content h]
  simp [TokenInfo.zero]

theorem fields_of_three {l : List Char} (h : 3 ≤ (fieldsOf l).length) :
    ∃ f1 f2 f3 fs, fieldsOf l = f1 :: f2 :: f3 :: fs := by
  rcases hq : fieldsOf l with _ | ⟨a, _ | ⟨b, _ | ⟨c, r⟩⟩⟩
  · rw [hq] at h; simp at h
  · rw [hq] at h; simp at h
  · rw [hq] at h; simp at h
  · exact ⟨a, b, c, r, rfl⟩

theorem parse_prepend (l content : List Char) (hn : '\n' ∉ l) (hs : Skipped l) :
    parseSemicolonLine (l ++ '\n' :: content) = parseSemicolonLine content := by
  unfold parseSemicolonLine
  rw [Split_append_sep _ _ _ hn, firstDataLine_skip _ _ hs]

theorem parse_prependLines (ls : List (List Char)) (content : List Char)
    (h : ∀ l ∈ ls, '\n' ∉ l ∧ Skipped l) :
    parseSemicolonLine (prependLines ls content) = parseSemicolonLine content := by
  induction ls with
  | nil => rfl
  | cons x xs ih =>
    have hx := h x (by simp)
    have : prependLines (x :: xs) content = x ++ '\n' :: prependLines xs content := rfl
    rw [this, parse_prepend _ _ hx.1 hx.2]
    exact ih (fun y hy => h y (by simp [hy]))

theorem trimmed_TrimSpace (x : List Char) (h : TrimSpace x ≠ []) : Trimmed (TrimSpace x) := by
  refine ⟨h, ?_, ?_⟩
  · intro c hc
    unfold TrimSpace at h hc
    have hpre : List.rdropWhile isSpace (List.dropWhile isSpace x) <+: List.dropWhile isSpace x :=
      List.rdropWhile_prefix _ _
    obtain ⟨t, ht⟩ := hpre
    have hd : List.dropWhile isSpace x ≠ [] := by
      intro e
      rw [e] at h
      exact h (by simp)
    have h1 := List.head_dropWhile_not isSpace x hd
    have h2 : (List.dropWhile isSpace x).head? = some c := by
      rw [← ht]
      cases hr : List.rdropWhile isSpace (List.dropWhile isSpace x) with
      | nil => exact absurd hr h
      | cons a as =>
        rw [hr] at hc
        simpa using hc
    rw [List.head?_eq_head hd] at h2
    have h3 : (List.dropWhile isSpace x).head hd = c := by simpa using h2
    rw [← h3]
    exact h1
  · intro c hc
    unfold TrimSpace at h hc
    have h1 := List.rdropWhile_last_not isSpace (List.dropWhile isSpace x) h
    rw [List.getLast?_eq_getLast _ h] at hc
    have h3 : (List.rdropWhile isSpace (List.dropWhile isSpace x)).getLast h = c := by
      simpa using hc
    rw [← h3]
    simpa using h1

theorem trimmed_of_mem_fieldsOf {l f : List Char} (h : f ∈ fieldsOf l) : Trimmed f := by
  obtain ⟨hne, x, rfl⟩ := mem_fieldsOf h
  exact trimmed_TrimSpace x hne

theorem runeToLower_ascii (caseTable : Char → Char) (c : Char) (h : c.toNat ≤ 0x7F) :
    runeToLower caseTable c = runeToLower plainTable c := by
  simp only [runeToLower, h, if_true]

theorem ToLower_ascii (caseTable : Char → Char) (s : List Char)
    (h : ∀ c ∈ s, c.toNat ≤ 0x7F) : ToLower caseTable s = ToLower plainTable s := by
  unfold ToLower
  exact List.map_congr_left (fun c hc => runeToLower_ascii caseTable c (h c hc))

theorem inferEnv_ascii (caseTable : Char → Char) (a b : List Char)
    (h : ∀ c ∈ a ++ " ".toList ++ b, c.toNat ≤ 0x7F) :
    InferEnv caseTable a b = InferEnv plainTable a b := by
  unfold InferEnv
  rw [ToLower_ascii caseTable _ h]

theorem load_cases (caseTable : Char → Char) (content : List Char) :
    LoadForAccount caseTable (some content) = (TokenInfo.zero, some LoadError.badFormat) ∧
      (NoDataLine content ∨ ∃ l, IsDataLine content l ∧ (fieldsOf l).length < 3) ∨
    ∃ l f1 f2 f3 fs, IsDataLine content l ∧ fieldsOf l = f1 :: f2 :: f3 :: fs ∧
      parseSemicolonLine content = ⟨f1, f2, f3 :: fs⟩ ∧
      LoadForAccount caseTable (some content) =
        (⟨f1, withBearer caseTable f2, f3 :: fs⟩, none) := by
  rcases data_cases content with h | ⟨l, h⟩
  · exact Or.inl ⟨load_of_none caseTable content h, Or.inl h⟩
  · by_cases hlen : (fieldsOf l).length < 3
    · exact Or.inl ⟨load_of_few caseTable content l h hlen, Or.inr ⟨l, h, hlen⟩⟩
    · obtain ⟨f1, f2, f3, fs, hf⟩ := fields_of_three (l := l) (by omega)
      refine Or.inr ⟨l, f1, f2, f3, fs, h, hf, ?_, load_of_fields caseTable content l f1 f2 f3 fs h hf⟩
      rw [parse_of_data content l h, hf]

theorem loaded_record_valid_aux (caseTable : Char → Char) (file : Option (List Char)) :
    (LoadForAccount caseTable file).2 = none → Valid caseTable (LoadForAccount caseTable file).1 := by
  cases file with
  | none => simp [LoadForAccount]
  | some content =>
    rcases load_cases caseTable content with ⟨e, _⟩ | ⟨l, f1, f2, f3, fs, _, hf, _, e⟩
    · rw [e]
      simp
    · rw [e]
      refine fun _ => ⟨?_, hasBearer_withBearer caseTable f2, by simp, ?_⟩
      · exact (mem_fieldsOf (l := l) (f := f1) (by rw [hf]; simp)).1
      · intro t ht
        exact trimmed_of_mem_fieldsOf (l := l) (by rw [hf]; simp [List.mem_cons] at ht ⊢; tauto)

theorem load_error_zero (caseTable : Char → Char) (file : Option (List Char)) :
    (LoadForAccount caseTable file).2 ≠ none →
      (LoadForAccount caseTable file).1 = TokenInfo.zero := by
  cases file with
  | none => simp [LoadForAccount]
  | some content =>
    rcases load_cases caseTable content with ⟨e, _⟩ | ⟨l, f1, f2, f3, fs, _, _, _, e⟩
    · rw [e]
      simp
    · rw [e]
      exact fun h => absurd rfl h

/-! ## The flat-format parser and loader (claims C1, C5, C6, C7) -/

/-- C1. The data line is the first line that is neither blank nor a comment after
trimming; when it has at least three non-empty trimmed fields `f1`, `f2`, `f3 .. fn`, the
loaded record has instance `f1`, credential `f2` with the scheme prefix put in front when
absent, and teams `f3 .. fn` in order.  The sample record of the specification loads as
stated, and blank or comment lines put in front of a content do not change the result. -/
theorem flat_parse_positional (caseTable : Char → Char) :
    (∀ content l f1 f2 f3 fs, IsDataLine content l → fieldsOf l = f1 :: f2 :: f3 :: fs →
      LoadForAccount caseTable (some content) =
        (⟨f1, if HasBearer caseTable f2 then f2 else "Bearer ".toList ++ f2, f3 :: fs⟩, none)) ∧
    LoadForAccount caseTable (some "guid-1;tok-1;d;q;pp;prod;dr".toList) =
      (⟨"guid-1".toList, "Bearer tok-1".toList,
        ["d".toList, "q".toList, "pp".toList, "prod".toList, "dr".toList]⟩, none) ∧
    (∀ ls content, (∀ l ∈ ls, '\n' ∉ l ∧ Skipped l) →
      parseSemicolonLine (prependLines ls content) = parseSemicolonLine content ∧
      LoadForAccount caseTable (some (prependLines ls content)) =
        LoadForAccount caseTable (some content)) := by
  refine ⟨?_, rfl, ?_⟩
  · intro content l f1 f2 f3 fs h hf
    rw [load_of_fields caseTable content l f1 f2 f3 fs h hf]
    simp only [withBearer, HasBearer]
  · intro ls content h
    have hp := parse_prependLines ls content h
    refine ⟨hp, ?_⟩
    rw [load_eq, load_eq, hp]

/-- Witness for C1: a comment line, a blank line, then a data line with surrounding
white space and an empty field. -/
theorem flat_parse_positional_witness :
    LoadForAccount plainTable (some "# c\n\n  guid-1;Bearer t; a ;;b\nrest".toList) =
      (⟨"guid-1".toList, "Bearer t".toList, ["a".toList, "b".toList]⟩, none) ∧
    parseSemicolonLine (prependLines ["# x".toList, " ".toList] "i;t;a".toList) =
      parseSemicolonLine "i;t;a".toList :=
  ⟨(flat_parse_positional plainTable).1 "# c\n\n  guid-1;Bearer t; a ;;b\nrest".toList
      "  guid-1;Bearer t; a ;;b".toList "guid-1".toList "Bearer t".toList "a".toList
      ["b".toList]
      ⟨["# c".toList, []], ["rest".toList], by decide, by decide, by decide⟩ (by decide),
    ((flat_parse_positional plainTable).2.2 ["# x".toList, " ".toList] "i;t;a".toList
      (by decide)).1⟩

/-- C5. On success the returned credential is the parsed credential `c` itself when the
lower-cased `c` begins with the scheme prefix, and the prefix followed by `c` otherwise;
the returned credential always carries the prefix, compared without regard to case; and
a parsed credential that is already a returned one is returned unchanged. -/
theorem bearer_normalization (caseTable : Char → Char) (content : List Char)
    (hok : (LoadForAccount caseTable (some content)).2 = none) :
    (startsWith (ToLower caseTable (parseSemicolonLine content).IamToken) "bearer ".toList = true →
      (LoadForAccount caseTable (some content)).1.IamToken =
        (parseSemicolonLine content).IamToken) ∧
    (startsWith (ToLower caseTable (parseSemicolonLine content).IamToken) "bearer ".toList = false →
      (LoadForAccount caseTable (some content)).1.IamToken =
        "Bearer ".toList ++ (parseSemicolonLine content).IamToken) ∧
    startsWith (ToLower caseTable (LoadForAccount caseTable (some content)).1.IamToken)
      "bearer ".toList = true ∧
    (∀ content2, (LoadForAccount caseTable (some content2)).2 = none →
      (parseSemicolonLine content2).IamToken =
        (LoadForAccount caseTable (some content)).1.IamToken →
      (LoadForAccount caseTable (some content2)).1.IamToken =
        (LoadForAccount caseTable (some content)).1.IamToken) := by
  rcases load_cases caseTable content with ⟨e, _⟩ | ⟨l, f1, f2, f3, fs, _, _, hp, e⟩
  · rw [e] at hok
    simp at hok
  · have hb := hasBearer_withBearer caseTable f2
    rw [e, hp]
    dsimp only
    refine ⟨?_, ?_, hb, ?_⟩
    · intro h
      rw [withBearer, if_pos h]
    · intro h
      rw [withBearer, if_neg (by rw [h]; exact Bool.false_ne_true)]
    · intro content2 hok2 htok
      rcases load_cases caseTable content2 with ⟨e2, _⟩ | ⟨l2, g1, g2, g3, gs, _, _, hp2, e2⟩
      · rw [e2] at hok2
        simp at hok2
      · rw [hp2] at htok
        dsimp only at htok
        rw [e2]
        dsimp only
        rw [htok]
        unfold HasBearer at hb
        rw [withBearer.eq_1 caseTable (withBearer caseTable f2), if_pos hb]

/-- Witness for C5: a record whose credential lacks the scheme prefix. -/
theorem bearer_normalization_witness :
    (LoadForAccount plainTable (some "guid-1;tok-1;d".toList)).1.IamToken =
      "Bearer ".toList ++ (parseSemicolonLine "guid-1;tok-1;d".toList).IamToken :=
  (bearer_normalization plainTable "guid-1;tok-1;d".toList (by decide)).2.1 (by decide)

/-- C6. For a readable file the load fails exactly when the content has no data line or
its data line has fewer than three fields that are non-empty after trimming; the failure
comes with the zero record; with three or more such fields the load succeeds. -/
theorem malformed_iff (caseTable : Char → Char) (content : List Char) :
    ((LoadForAccount caseTable (some content)).2 ≠ none ↔
      (NoDataLine content ∨ ∃ l, IsDataLine content l ∧ (fieldsOf l).length < 3)) ∧
    ((LoadForAccount caseTable (some content)).2 ≠ none →
      (LoadForAccount caseTable (some content)).1 = TokenInfo.zero) ∧
    (∀ l, IsDataLine content l → 3 ≤ (fieldsOf l).length →
      (LoadForAccount caseTable (some content)).2 = none) := by
  refine ⟨⟨?_, ?_⟩, ?_, ?_⟩
  · intro h
    rcases load_cases caseTable content with ⟨_, hc⟩ | ⟨l, f1, f2, f3, fs, _, _, _, e⟩
    · exact hc
    · rw [e] at h
      exact absurd rfl h
  · rintro (h | ⟨l, h, hlen⟩)
    · rw [load_of_none caseTable content h]
      simp
    · rw [load_of_few caseTable content l h hlen]
      simp
  · intro h
    rcases load_cases caseTable content with ⟨e, _⟩ | ⟨l, f1, f2, f3, fs, _, _, _, e⟩
    · rw [e]
    · rw [e] at h
      exact absurd rfl h
  · intro l h hlen
    obtain ⟨f1, f2, f3, fs, hf⟩ := fields_of_three hlen
    rw [load_of_fields caseTable content l f1 f2 f3 fs h hf]

/-- Witness for C6: a data line with two fields after a comment line is rejected, and a
data line with three fields is accepted. -/
theorem malformed_iff_witness :
    (LoadForAccount plainTable (some "#x\na;b;".toList)).2 ≠ none ∧
    (LoadForAccount plainTable (some "a;b;c".toList)).2 = none :=
  ⟨(malformed_iff plainTable "#x\na;b;".toList).1.2
      (Or.inr ⟨"a;b;".toList, ⟨["#x".toList], [], by decide, by decide, by decide⟩, by decide⟩),
    (malformed_iff plainTable "a;b;c".toList).2.2 "a;b;c".toList
      ⟨[], [], by decide, by decide, by decide⟩ (by decide)⟩

/-- C7. Every record the flat load returns without error is fully valid: the instance is
non-empty, the credential carries the scheme prefix, the team list is non-empty and each
team is non-empty with no white space at either end.  A failed load returns the zero
record, so no partially populated record is returned. -/
theorem loaded_record_valid (caseTable : Char → Char) (file : Option (List Char)) :
    ((LoadForAccount caseTable file).2 = none → Valid caseTable (LoadForAccount caseTable file).1) ∧
    ((LoadForAccount caseTable file).2 ≠ none →
      (LoadForAccount caseTable file).1 = TokenInfo.zero) :=
  ⟨loaded_record_valid_aux caseTable file, load_error_zero caseTable file⟩

/-- Witness for C7: a successful load of a record with padded fields. -/
theorem loaded_record_valid_witness :
    Valid plainTable (LoadForAccount plainTable (some " g ; t ; a ; b ".toList)).1 :=
  (loaded_record_valid plainTable (some " g ; t ; a ; b ".toList)).1 (by decide)

/-! ## Team selection (claims C2, C4, C8) -/

theorem order_of_position {pos : Nat} {env : Env} (h : envPositions.get? pos = some env) :
    order env = some (pos : Int) ∧ env ≠ Env.Unknown := by
  unfold envPositions at h
  match pos, h with
  | 0, h => cases h; exact ⟨rfl, by decide⟩
  | 1, h => cases h; exact ⟨rfl, by decide⟩
  | 2, h => cases h; exact ⟨rfl, by decide⟩
  | 3, h => cases h; exact ⟨rfl, by decide⟩
  | 4, h => cases h; exact ⟨rfl, by decide⟩
  | n + 5, h => simp at h

theorem position_of_order {env : Env} {idx : Int} (h : order env = some idx) :
    ∃ pos : Nat, idx = (pos : Int) ∧ envPositions.get? pos = some env := by
  cases env <;> simp [order] at h <;> subst h
  · exact ⟨0, rfl, rfl⟩
  · exact ⟨1, rfl, rfl⟩
  · exact ⟨2, rfl, rfl⟩
  · exact ⟨3, rfl, rfl⟩
  · exact ⟨4, rfl, rfl⟩

theorem index_natCast {α : Type} (xs : List α) (n : Nat) : index xs (n : Int) = xs.get? n := by
  simp [index]

theorem teamIDAuto_mapped (caseTable : Char → Char) (t : TokenInfo) (a b : List Char)
    (d : Int) (pos : Nat) (env : Env) (id : List Char)
    (hpos : envPositions.get? pos = some env) (henv : InferEnv caseTable a b = env)
    (hid : t.TeamIDs.get? pos = some id) :
    t.TeamIDAuto caseTable a b d = some (id, env) := by
  have ho := (order_of_position hpos).1
  have hlt : pos < t.TeamIDs.length := by
    by_contra hge
    rw [List.get?_eq_none.2 (by omega)] at hid
    cases hid
  simp only [TokenInfo.TeamIDAuto, henv, ho, index_natCast, hid]
  have : ((pos : Int) ≥ 0 ∧ (pos : Int) < (t.TeamIDs.length : Int)) := by omega
  simp [this]

theorem fallbackTeam_eq (t : TokenInfo) (d : Int) :
    fallbackTeam t d =
      if t.TeamIDs = [] then some ([], Env.Unknown)
      else if 0 ≤ d ∧ d < (t.TeamIDs.length : Int) then
        (t.TeamIDs.get? d.toNat).map (fun id => (id, Env.Unknown))
      else t.TeamIDs.head?.map (fun id => (id, Env.Unknown)) := by
  unfold fallbackTeam
  cases hT : t.TeamIDs with
  | nil => simp
  | cons x xs =>
    simp only [List.length_cons, gt_iff_lt, Nat.zero_lt_succ, if_true]
    push_cast
    by_cases h1 : d < 0
    · have h3 : ¬ (0 ≤ d ∧ d < (xs.length : Int) + 1) := by omega
      rw [if_pos h1, if_neg h3]
      simp [index]
    · by_cases h2 : d ≥ (xs.length : Int) + 1
      · have h3 : ¬ (0 ≤ d ∧ d < (xs.length : Int) + 1) := by omega
        rw [if_neg h1, if_pos h2, if_neg h3]
        simp [index]
      · have h3 : (0 ≤ d ∧ d < (xs.length : Int) + 1) := by omega
        rw [if_neg h1, if_neg h2, if_pos h3]
        simp [index, h1]

theorem teamIDAuto_fallback (caseTable : Char → Char) (t : TokenInfo) (a b : List Char)
    (d : Int)
    (h : InferEnv caseTable a b = Env.Unknown ∨
      ∃ pos, envPositions.get? pos = some (InferEnv caseTable a b) ∧ t.TeamIDs.length ≤ pos) :
    t.TeamIDAuto caseTable a b d = fallbackTeam t d := by
  rcases h with h | ⟨pos, hpos, hlen⟩
  · simp [TokenInfo.TeamIDAuto, h, order]
  · have ho := (order_of_position hpos).1
    have : ¬ ((pos : Int) ≥ 0 ∧ (pos : Int) < (t.TeamIDs.length : Int)) := by omega
    simp only [TokenInfo.TeamIDAuto, ho, this, if_false]

theorem fallbackTeam_mem (t : TokenInfo) (d : Int) :
    ∃ id, fallbackTeam t d = some (id, Env.Unknown) ∧
      (id ∈ t.TeamIDs ∨ (t.TeamIDs = [] ∧ id = [])) := by
  rw [fallbackTeam_eq]
  cases hT : t.TeamIDs with
  | nil => exact ⟨[], by simp⟩
  | cons x xs =>
    simp only [reduceCtorEq, if_false]
    split
    · rename_i h
      have hlt : d.toNat < (x :: xs).length := by
        have := h.2
        omega
      refine ⟨(x :: xs).get ⟨d.toNat, hlt⟩, ?_, Or.inl (List.get_mem _ _ _)⟩
      rw [List.get?_eq_get hlt]
      rfl
    · exact ⟨x, by simp⟩

theorem teamIDAuto_cases (caseTable : Char → Char) (t : TokenInfo) (a b : List Char) :
    (∃ pos id, envPositions.get? pos = some (InferEnv caseTable a b) ∧
        t.TeamIDs.get? pos = some id) ∨
    (InferEnv caseTable a b = Env.Unknown ∨
      ∃ pos, envPositions.get? pos = some (InferEnv caseTable a b) ∧ t.TeamIDs.length ≤ pos) := by
  cases ho : order (InferEnv caseTable a b) with
  | none =>
    right; left
    cases he : InferEnv caseTable a b <;> rw [he] at ho <;> simp [order] at ho
  | some idx =>
    obtain ⟨pos, _, hpos⟩ := position_of_order ho
    by_cases hlt : pos < t.TeamIDs.length
    · left
      exact ⟨pos, t.TeamIDs.get ⟨pos, hlt⟩, hpos, List.get?_eq_get hlt⟩
    · right; right
      exact ⟨pos, hpos, by omega⟩

theorem teamIDAuto_mem (caseTable : Char → Char) (t : TokenInfo) (a b : List Char) (d : Int) :
    ∃ id env, t.TeamIDAuto caseTable a b d = some (id, env) ∧
      (id ∈ t.TeamIDs ∨ (t.TeamIDs = [] ∧ id = [])) := by
  rcases teamIDAuto_cases caseTable t a b with ⟨pos, id, hpos, hid⟩ | h
  · exact ⟨id, _, teamIDAuto_mapped caseTable t a b d pos _ id hpos rfl hid,
      Or.inl (List.get?_mem hid)⟩
  · obtain ⟨id, e, hm⟩ := fallbackTeam_mem t d
    exact ⟨id, Env.Unknown, by rw [teamIDAuto_fallback caseTable t a b d h, e], hm⟩

/-- C2. When the hints classify as DEV, QUALIF, PP, PROD or DR and the position of that
environment (0, 1, 2, 3, 4) is inside the team list, the selection returns the team at
that position together with the environment, whatever the default index.  With teams
`[d, q, pp, prod, dr]` and hints classifying PROD the result is `prod`. -/
theorem teamIDAuto_position (caseTable : Char → Char) :
    (∀ (t : TokenInfo) (a b : List Char) (d : Int) (pos : Nat) (env : Env) (id : List Char),
      envPositions.get? pos = some env → InferEnv caseTable a b = env →
      t.TeamIDs.get? pos = some id →
      t.TeamIDAuto caseTable a b d = some (id, env)) ∧
    (∀ (g tok a b : List Char) (d : Int), InferEnv caseTable a b = Env.Prod →
      TokenInfo.TeamIDAuto caseTable
        ⟨g, tok, ["d".toList, "q".toList, "pp".toList, "prod".toList, "dr".toList]⟩ a b d =
        some ("prod".toList, Env.Prod)) := by
  refine ⟨fun t a b d pos env id hpos henv hid =>
    teamIDAuto_mapped caseTable t a b d pos env id hpos henv hid, ?_⟩
  intro g tok a b d h
  exact teamIDAuto_mapped caseTable _ a b d 3 Env.Prod _ rfl h rfl

/-- Witness for C2: hints that classify QUALIF select position 1 although the default
index is 2. -/
theorem teamIDAuto_position_witness :
    TokenInfo.TeamIDAuto plainTable ⟨"g".toList, "Bearer t".toList, ["a".toList, "b".toList, "c".toList]⟩
      "ns-qa-7".toList "AP1".toList 2 = some ("b".toList, Env.Qualif) :=
  (teamIDAuto_position plainTable).1 _ "ns-qa-7".toList "AP1".toList 2 1 Env.Qualif "b".toList
    (by decide) (by decide) (by decide)

/-- C4. The selection never reads outside the team list.  When the hints classify as
UNKNOWN, or the position of the environment is outside the list, the result is the team
at the default index if that index is inside the list, the first team if the default
index is negative or too large and the list is non-empty, and the empty string if the
list is empty. -/
theorem teamIDAuto_fallback_safe (caseTable : Char → Char) (t : TokenInfo) (a b : List Char)
    (d : Int) :
    (t.TeamIDAuto caseTable a b d).isSome = true ∧
    ((InferEnv caseTable a b = Env.Unknown ∨
        ∃ pos, envPositions.get? pos = some (InferEnv caseTable a b) ∧
          t.TeamIDs.length ≤ pos) →
      (0 ≤ d ∧ d < (t.TeamIDs.length : Int) →
        ∃ id, t.TeamIDs.get? d.toNat = some id ∧
          t.TeamIDAuto caseTable a b d = some (id, Env.Unknown)) ∧
      ((d < 0 ∨ (t.TeamIDs.length : Int) ≤ d) → t.TeamIDs ≠ [] →
        ∃ id, t.TeamIDs.head? = some id ∧
          t.TeamIDAuto caseTable a b d = some (id, Env.Unknown)) ∧
      (t.TeamIDs = [] → t.TeamIDAuto caseTable a b d = some ([], Env.Unknown))) ∧
    (InferEnv caseTable a b = Env.Unknown →
      TokenInfo.TeamIDAuto caseTable
        ⟨t.IbmInstanceID, t.IamToken,
          ["d".toList, "q".toList, "pp".toList, "prod".toList, "dr".toList]⟩ a b 0 =
        some ("d".toList, Env.Unknown)) ∧
    TokenInfo.TeamIDAuto caseTable ⟨t.IbmInstanceID, t.IamToken, []⟩ a b d =
      some ([], Env.Unknown) := by
  refine ⟨?_, ?_, ?_, ?_⟩
  · obtain ⟨id, env, e, _⟩ := teamIDAuto_mem caseTable t a b d
    rw [e]
    rfl
  · intro h
    rw [teamIDAuto_fallback caseTable t a b d h, fallbackTeam_eq]
    refine ⟨?_, ?_, ?_⟩
    · intro hd
      have hne : t.TeamIDs ≠ [] := by
        intro e
        rw [e] at hd
        simp at hd
        omega
      have hlt : d.toNat < t.TeamIDs.length := by omega
      refine ⟨t.TeamIDs.get ⟨d.toNat, hlt⟩, List.get?_eq_get hlt, ?_⟩
      rw [if_neg hne, if_pos hd, List.get?_eq_get hlt]
      rfl
    · intro hd hne
      have hnd : ¬ (0 ≤ d ∧ d < (t.TeamIDs.length : Int)) := by omega
      rw [if_neg hne, if_neg hnd]
      cases hT : t.TeamIDs with
      | nil => exact absurd hT hne
      | cons x xs => exact ⟨x, rfl, rfl⟩
    · intro he
      rw [if_pos he]
  · intro h
    rw [teamIDAuto_fallback caseTable _ a b 0 (Or.inl h)]
    rfl
  · rcases teamIDAuto_cases caseTable ⟨t.IbmInstanceID, t.IamToken, []⟩ a b with
      ⟨pos, id, _, hid⟩ | h
    · simp at hid
    · rw [teamIDAuto_fallback caseTable _ a b d h]
      rfl

/-- Witness for C4: hints classifying DR on a three-element list with an out-of-range
default index fall back to the first team. -/
theorem teamIDAuto_fallback_safe_witness :
    ∃ id, (["a".toList, "b".toList, "c".toList] : List (List Char)).head? = some id ∧
      TokenInfo.TeamIDAuto plainTable ⟨"g".toList, "t".toList, ["a".toList, "b".toList, "c".toList]⟩
        "dr-site".toList [] 7 = some (id, Env.Unknown) :=
  ((teamIDAuto_fallback_safe plainTable ⟨"g".toList, "t".toList, ["a".toList, "b".toList, "c".toList]⟩
      "dr-site".toList [] 7).2.1 (Or.inr ⟨4, by decide, by decide⟩)).2.1
    (Or.inr (by decide)) (by decide)

theorem TrimSpace_of_trimmed {t : List Char} (h : Trimmed t) : TrimSpace t = t := by
  obtain ⟨hne, hh, hl⟩ := h
  unfold TrimSpace
  have h1 : List.dropWhile isSpace t = t := by
    cases t with
    | nil => rfl
    | cons c cs =>
      have := hh c rfl
      simp [List.dropWhile, this]
  rw [h1, List.rdropWhile_eq_self_iff]
  intro hl2
  have := hl (t.getLast hl2) (List.getLast?_eq_getLast _ hl2)
  simp [this]

/-- C8, as stated, fails: with teams `[d, q, pp, "", dr]`, hints `prod` and default index
0, the mapped position 3 is inside the list and holds the empty string, and the selection
returns that empty string with PROD instead of the team `d` at the fallback position. -/
theorem teamIDAuto_blank_counterexample :
    InferEnv plainTable "prod".toList [] = Env.Prod ∧
    envPositions.get? 3 = some Env.Prod ∧
    (["d".toList, "q".toList, "pp".toList, [], "dr".toList] : List (List Char)).get? 3 = some [] ∧
    TrimSpace [] = [] ∧
    fallbackTeam ⟨"g".toList, "Bearer t".toList,
        ["d".toList, "q".toList, "pp".toList, [], "dr".toList]⟩ 0 =
      some ("d".toList, Env.Unknown) ∧
    TokenInfo.TeamIDAuto plainTable
        ⟨"g".toList, "Bearer t".toList, ["d".toList, "q".toList, "pp".toList, [], "dr".toList]⟩
        "prod".toList [] 0 = some ([], Env.Prod) := by
  decide

/-- C8, amended.  For a record returned by the flat load, the selection always returns a
team that is non-empty, also after trimming.  For an arbitrary record whose mapped
position is inside the list and holds a value that is empty after trimming, that value is
returned as it is, with the detected environment. -/
theorem teamIDAuto_blank_amended (caseTable : Char → Char) :
    (∀ (file : Option (List Char)) (a b : List Char) (d : Int),
      (LoadForAccount caseTable file).2 = none →
      ∃ id env, (LoadForAccount caseTable file).1.TeamIDAuto caseTable a b d = some (id, env) ∧
        id ≠ [] ∧ TrimSpace id ≠ []) ∧
    (∀ (t : TokenInfo) (a b : List Char) (d : Int) (pos : Nat) (env : Env) (id : List Char),
      envPositions.get? pos = some env → InferEnv caseTable a b = env →
      t.TeamIDs.get? pos = some id → TrimSpace id = [] →
      t.TeamIDAuto caseTable a b d = some (id, env)) := by
  refine ⟨?_, fun t a b d pos env id hpos henv hid _ =>
    teamIDAuto_mapped caseTable t a b d pos env id hpos henv hid⟩
  intro file a b d hok
  obtain ⟨_, _, hne, hall⟩ := (loaded_record_valid_aux caseTable file) hok
  obtain ⟨id, env, e, hm⟩ := teamIDAuto_mem caseTable (LoadForAccount caseTable file).1 a b d
  refine ⟨id, env, e, ?_⟩
  rcases hm with hm | ⟨he, _⟩
  · have ht := hall id hm
    rw [TrimSpace_of_trimmed ht]
    exact ⟨ht.1, ht.1⟩
  · exact absurd he hne

/-- Witness for C8 amended: a loaded record routed by hints that classify DEV. -/
theorem teamIDAuto_blank_amended_witness :
    ∃ id env, (LoadForAccount plainTable (some "g;t; a ;b".toList)).1.TeamIDAuto plainTable
        "my-dev-sandbox".toList [] 0 = some (id, env) ∧ id ≠ [] ∧ TrimSpace id ≠ [] :=
  (teamIDAuto_blank_amended plainTable).1 (some "g;t; a ;b".toList) "my-dev-sandbox".toList [] 0
    (by decide)

/-! ## The pattern matcher -/

theorem endPrev_nil (prev : Option Char) : endPrev prev [] = prev := rfl

theorem endPrev_cons (prev : Option Char) (c : Char) (cs : List Char) :
    endPrev prev (c :: cs) = endPrev (some c) cs := by
  cases cs with
  | nil => rfl
  | cons d ds =>
    simp only [endPrev, List.getLast?_cons_cons,
      List.getLast?_eq_getLast _ (List.cons_ne_nil d ds)]

theorem endPrev_none (w : List Char) : endPrev none w = w.getLast? := by
  unfold endPrev
  cases w.getLast? <;> rfl

theorem mem_run_lit (w : List Char) :
    ∀ (prev : Option Char) (rest : List Char) (st : Option Char × List Char),
      st ∈ (Regex.lit w).run (prev, rest) ↔
        ∃ post, rest = w ++ post ∧ st = (endPrev prev w, post) := by
  induction w with
  | nil =>
    intro prev rest st
    simp [Regex.lit, Regex.run, endPrev_nil]
  | cons c cs ih =>
    intro prev rest st
    rw [endPrev_cons]
    cases rest with
    | nil => simp [Regex.lit, Regex.run]
    | cons x xs =>
      by_cases hx : x = c
      · subst hx
        simp [Regex.lit, Regex.run, ih]
      · simp [Regex.lit, Regex.run, hx]

theorem mem_run_oneOf (vs : List (List Char)) :
    ∀ (w : List Char) (st0 st : Option Char × List Char),
      st ∈ (Regex.oneOf w vs).run st0 ↔ ∃ kw ∈ w :: vs, st ∈ (Regex.lit kw).run st0 := by
  induction vs with
  | nil =>
    intro w st0 st
    simp [Regex.oneOf]
  | cons v vs ih =>
    intro w st0 st
    simp only [Regex.oneOf, Regex.run, List.mem_append, ih v]
    constructor
    · rintro (h | ⟨kw, hk, h⟩)
      · exact ⟨w, by simp, h⟩
      · exact ⟨kw, List.mem_cons_of_mem _ hk, h⟩
    · rintro ⟨kw, hk, h⟩
      rcases List.mem_cons.1 hk with rfl | hk
      · exact Or.inl h
      · exact Or.inr ⟨kw, hk, h⟩

theorem run_wordPattern_ne_nil (w : List Char) (vs : List (List Char)) (prev : Option Char)
    (rest : List Char) :
    (wordPattern w vs).run (prev, rest) ≠ [] ↔
      atWordBoundary prev rest = true ∧
        ∃ kw ∈ w :: vs, ∃ post, rest = kw ++ post ∧
          atWordBoundary (endPrev prev kw) post = true := by
  have hmem : ∀ st, st ∈ (wordPattern w vs).run (prev, rest) ↔
      atWordBoundary prev rest = true ∧
        ∃ kw ∈ w :: vs, ∃ post, rest = kw ++ post ∧ st = (endPrev prev kw, post) ∧
          atWordBoundary (endPrev prev kw) post = true := by
    intro st
    simp only [wordPattern, Regex.run, List.mem_flatMap]
    constructor
    · rintro ⟨s1, h1, s2, h2, h3⟩
      by_cases hb : atWordBoundary prev rest = true
      · rw [if_pos hb, List.mem_singleton] at h1
        subst h1
        obtain ⟨kw, hk, hl⟩ := (mem_run_oneOf vs w _ _).1 h2
        obtain ⟨post, e, rfl⟩ := (mem_run_lit kw prev rest s2).1 hl
        by_cases hb2 : atWordBoundary (endPrev prev kw) post = true
        · rw [if_pos hb2, List.mem_singleton] at h3
          exact ⟨hb, kw, hk, post, e, h3, hb2⟩
        · rw [if_neg hb2] at h3
          cases h3
      · rw [if_neg hb] at h1
        cases h1
    · rintro ⟨hb, kw, hk, post, e, rfl, hb2⟩
      refine ⟨(prev, rest), by rw [if_pos hb]; simp, (endPrev prev kw, post), ?_, ?_⟩
      · exact (mem_run_oneOf vs w _ _).2 ⟨kw, hk, (mem_run_lit kw prev rest _).2 ⟨post, e, rfl⟩⟩
      · rw [if_pos hb2]
        simp
  constructor
  · intro h
    obtain ⟨st, hst⟩ := List.exists_mem_of_ne_nil _ h
    obtain ⟨hb, kw, hk, post, e, _, hb2⟩ := (hmem st).1 hst
    exact ⟨hb, kw, hk, post, e, hb2⟩
  · rintro ⟨hb, kw, hk, post, e, hb2⟩
    exact List.ne_nil_of_mem ((hmem _).2 ⟨hb, kw, hk, post, e, rfl, hb2⟩)

theorem findFrom_isSome (re : Regex) (s : List Char) :
    ∀ (i : Nat) (prev : Option Char),
      (findFrom re i prev s).isSome = true ↔
        ∃ pre rest, s = pre ++ rest ∧ re.run (endPrev prev pre, rest) ≠ [] := by
  induction s with
  | nil =>
    intro i prev
    simp only [findFrom]
    cases h : re.run (prev, []) with
    | nil =>
      simp only [Option.isSome_none, Bool.false_eq_true, false_iff]
      rintro ⟨pre, rest, e, hr⟩
      obtain ⟨rfl, rfl⟩ := List.append_eq_nil.1 e.symm
      exact hr h
    | cons st sts =>
      simp only [Option.isSome_some, true_iff]
      exact ⟨[], [], rfl, by rw [endPrev_nil, h]; simp⟩
  | cons c cs ih =>
    intro i prev
    simp only [findFrom]
    cases h : re.run (prev, c :: cs) with
    | nil =>
      simp only
      rw [ih]
      constructor
      · rintro ⟨pre, rest, e, hr⟩
        exact ⟨c :: pre, rest, by simp [e], by rwa [endPrev_cons]⟩
      · rintro ⟨pre, rest, e, hr⟩
        cases pre with
        | nil =>
          simp only [List.nil_append] at e
          subst e
          exact absurd h hr
        | cons x xs =>
          simp only [List.cons_append, List.cons.injEq] at e
          obtain ⟨rfl, rfl⟩ := e
          exact ⟨xs, rest, rfl, by rwa [endPrev_cons] at hr⟩
    | cons st sts =>
      simp only [Option.isSome_some, true_iff]
      exact ⟨[], c :: cs, rfl, by rw [endPrev_nil, h]; simp⟩

theorem wordBefore_false (o : Option Char) :
    wordBefore o = false ↔ ∀ c, o = some c → isWordChar c = false := by
  cases o with
  | none => simp [wordBefore]
  | some x => simp [wordBefore]

theorem wordAfter_false (l : List Char) :
    wordAfter l = false ↔ ∀ c, l.head? = some c → isWordChar c = false := by
  cases l with
  | nil => simp [wordAfter]
  | cons x xs => simp [wordAfter]

theorem wordAfter_append {kw : List Char} (h : wordAfter kw = true) (post : List Char) :
    wordAfter (kw ++ post) = true := by
  cases kw with
  | nil => simp [wordAfter] at h
  | cons x xs => simpa [wordAfter] using h

theorem endPrev_proper {kw : List Char} (h : ProperWord kw) (prev : Option Char) :
    wordBefore (endPrev prev kw) = true := by
  unfold endPrev
  have h2 := h.2
  cases hk : kw.getLast? with
  | none => rw [hk] at h2; simp [wordBefore] at h2
  | some c => rw [hk] at h2; exact h2

theorem has_wordPattern (w : List Char) (vs : List (List Char))
    (hp : ∀ kw ∈ w :: vs, ProperWord kw) (s : List Char) :
    has s (wordPattern w vs) = true ↔ MatchesAny s (w :: vs) := by
  unfold has FindStringIndex
  rw [findFrom_isSome]
  constructor
  · rintro ⟨pre, rest, e, hr⟩
    obtain ⟨hb, kw, hk, post, e2, hb2⟩ := (run_wordPattern_ne_nil w vs _ rest).1 hr
    have hpk := hp kw hk
    refine ⟨kw, hk, pre, post, by rw [e, e2, List.append_assoc], ?_, ?_⟩
    · rw [← wordBefore_false, ← endPrev_none]
      rw [e2] at hb
      simpa [atWordBoundary, wordAfter_append hpk.1] using hb
    · rw [← wordAfter_false]
      simpa [atWordBoundary, endPrev_proper hpk] using hb2
  · rintro ⟨kw, hk, pre, post, e, h1, h2⟩
    have hpk := hp kw hk
    refine ⟨pre, kw ++ post, by rw [e, List.append_assoc], ?_⟩
    rw [run_wordPattern_ne_nil]
    refine ⟨?_, kw, hk, post, rfl, ?_⟩
    · rw [← wordBefore_false, ← endPrev_none] at h1
      simp [atWordBoundary, wordAfter_append hpk.1, h1]
    · rw [← wordAfter_false] at h2
      simp [atWordBoundary, endPrev_proper hpk, h2]

/-! ## Environment inference (claims C3, C9, C10) -/

theorem has_prodPattern (s : List Char) :
    has s prodPattern = true ↔ MatchesAny s prodWords :=
  has_wordPattern _ _ (by decide) s

theorem has_ppPattern (s : List Char) :
    has s ppPattern = true ↔ MatchesAny s ppWords :=
  has_wordPattern _ _ (by decide) s

theorem has_qualifPattern (s : List Char) :
    has s qualifPattern = true ↔ MatchesAny s qualifWords :=
  has_wordPattern _ _ (by decide) s

theorem has_devPattern (s : List Char) :
    has s devPattern = true ↔ MatchesAny s devWords :=
  has_wordPattern _ _ (by decide) s

theorem has_drPattern (s : List Char) :
    has s drPattern = true ↔ MatchesAny s drWords :=
  has_wordPattern _ _ (by decide) s

theorem firstMatch_unique (text : List Char) (cs : List (Env × List (List Char)))
    (e1 e2 : Env) (h1 : FirstMatch text cs e1) (h2 : FirstMatch text cs e2) : e1 = e2 := by
  induction cs with
  | nil =>
    simp only [FirstMatch] at h1 h2
    rw [h1, h2]
  | cons c cs ih =>
    simp only [FirstMatch] at h1 h2
    rcases h1 with ⟨m1, rfl⟩ | ⟨n1, r1⟩ <;> rcases h2 with ⟨m2, rfl⟩ | ⟨n2, r2⟩
    · rfl
    · exact absurd m1 n2
    · exact absurd m2 n1
    · exact ih r1 r2

theorem inferEnv_firstMatch (caseTable : Char → Char) (a b : List Char) :
    FirstMatch (ToLower caseTable (a ++ " ".toList ++ b)) categories (InferEnv caseTable a b) := by
  unfold InferEnv
  dsimp only
  generalize ToLower caseTable (a ++ " ".toList ++ b) = text
  simp only [categories, FirstMatch, ← has_prodPattern, ← has_ppPattern,
    ← has_qualifPattern, ← has_devPattern, ← has_drPattern]
  cases has text prodPattern <;> cases has text ppPattern <;> cases has text qualifPattern <;>
    cases has text devPattern <;> cases has text drPattern <;> simp

/-- C3. The inference is a total function; its result is exactly the first category, in
the order PROD, PP, QUALIF, DEV, DR, whose keyword set has a whole-word occurrence in the
lower-cased text of the first hint, a blank and the second hint, and UNKNOWN when no
category matches.  A text with both a `dev` token and a `prod` token classifies PROD,
hints with the same lower-cased text classify alike, and the three sample hints classify
PROD, DEV and UNKNOWN. -/
theorem inferEnv_first_match (caseTable : Char → Char) :
    (∀ a b e, FirstMatch (ToLower caseTable (a ++ " ".toList ++ b)) categories e ↔
      InferEnv caseTable a b = e) ∧
    (∀ a b, WholeWord (ToLower caseTable (a ++ " ".toList ++ b)) "dev".toList →
      WholeWord (ToLower caseTable (a ++ " ".toList ++ b)) "prod".toList →
      InferEnv caseTable a b = Env.Prod) ∧
    (∀ a b a2 b2,
      ToLower caseTable (a ++ " ".toList ++ b) = ToLower caseTable (a2 ++ " ".toList ++ b2) →
      InferEnv caseTable a b = InferEnv caseTable a2 b2) ∧
    InferEnv caseTable "PROD-ns-01".toList [] = InferEnv caseTable "prod-NS-01".toList [] ∧
    InferEnv caseTable "prod-ns-01".toList [] = Env.Prod ∧
    InferEnv caseTable "my-dev-sandbox".toList [] = Env.Dev ∧
    InferEnv caseTable "random-name".toList [] = Env.Unknown := by
  refine ⟨?_, ?_, ?_, ?_, ?_, ?_, ?_⟩
  · intro a b e
    constructor
    · intro h
      exact firstMatch_unique _ _ _ _ (inferEnv_firstMatch caseTable a b) h
    · rintro rfl
      exact inferEnv_firstMatch caseTable a b
  · intro a b _ hprod
    have h := inferEnv_firstMatch caseTable a b
    simp only [categories, FirstMatch] at h
    rcases h with ⟨_, e⟩ | ⟨n, _⟩
    · exact e
    · exact absurd ⟨"prod".toList, by decide, hprod⟩ n
  · intro a b a2 b2 h
    simp only [InferEnv, h]
  · rw [inferEnv_ascii caseTable "PROD-ns-01".toList [] (by decide),
      inferEnv_ascii caseTable "prod-NS-01".toList [] (by decide)]
    decide
  · rw [inferEnv_ascii caseTable "prod-ns-01".toList [] (by decide)]
    decide
  · rw [inferEnv_ascii caseTable "my-dev-sandbox".toList [] (by decide)]
    decide
  · rw [inferEnv_ascii caseTable "random-name".toList [] (by decide)]
    decide

/-- Witness for C3: a hint with both a `dev` token and a `prod` token. -/
theorem inferEnv_first_match_witness :
    InferEnv plainTable "dev-Prod".toList "x".toList = Env.Prod :=
  (inferEnv_first_match plainTable).2.1 "dev-Prod".toList "x".toList
    ⟨[], "-prod x".toList, by decide, (by intro c h; cases h),
      (by intro c h; cases h; decide)⟩
    ⟨"dev-".toList, " x".toList, by decide, (by intro c h; cases h; decide),
      (by intro c h; cases h; decide)⟩

theorem wholeWord_preprod (s : List Char) (h : WholeWord s "pre-prod".toList) :
    WholeWord s "prod".toList := by
  obtain ⟨pre, post, e, _, h2⟩ := h
  refine ⟨pre ++ "pre-".toList, post, by rw [e]; simp, ?_, h2⟩
  intro c hc
  have : (pre ++ "pre-".toList).getLast? = some '-' := by
    rw [List.getLast?_append]
    rfl
  rw [this] at hc
  cases hc
  decide

/-- C9, evaluated on the code: every listed keyword, taken as the whole first hint,
classifies into its own environment, except `pre-prod`, which classifies PROD. -/
theorem keyword_hints (caseTable : Char → Char) :
    prodWords.map (fun k => InferEnv caseTable k []) = [Env.Prod, Env.Prod, Env.Prod] ∧
    ppWords.map (fun k => InferEnv caseTable k []) =
      [Env.PP, Env.PP, Env.Prod, Env.PP, Env.PP] ∧
    ppWords.get? 2 = some "pre-prod".toList ∧
    qualifWords.map (fun k => InferEnv caseTable k []) =
      [Env.Qualif, Env.Qualif, Env.Qualif, Env.Qualif] ∧
    devWords.map (fun k => InferEnv caseTable k []) = [Env.Dev, Env.Dev, Env.Dev] ∧
    drWords.map (fun k => InferEnv caseTable k []) = [Env.DR, Env.DR, Env.DR] := by
  have hp : ∀ ws : List (List Char), (∀ k ∈ ws, ∀ c ∈ k ++ " ".toList ++ [], c.toNat ≤ 0x7F) →
      ws.map (fun k => InferEnv caseTable k []) = ws.map (fun k => InferEnv plainTable k []) :=
    fun ws h => List.map_congr_left (fun k hk => inferEnv_ascii caseTable k [] (h k hk))
  rw [hp prodWords (by decide), hp ppWords (by decide), hp qualifWords (by decide),
    hp devWords (by decide), hp drWords (by decide)]
  decide

/-- C10, as stated, fails: the hint `developer` does not classify DEV. -/
theorem developer_counterexample :
    InferEnv plainTable "developer".toList [] ≠ Env.Dev := by
  decide

/-- C10, amended.  Under the boundary rule that the inference implements, the hint
`developer` has no whole-word occurrence of `dev`, `develop` or any other keyword, and it
classifies UNKNOWN. -/
theorem developer_unknown (caseTable : Char → Char) :
    InferEnv caseTable "developer".toList [] = Env.Unknown ∧
    ¬ WholeWord (ToLower caseTable ("developer".toList ++ " ".toList ++ [])) "dev".toList ∧
    ¬ WholeWord (ToLower caseTable ("developer".toList ++ " ".toList ++ [])) "develop".toList := by
  have ht : ToLower caseTable ("developer".toList ++ " ".toList ++ []) =
      ToLower plainTable ("developer".toList ++ " ".toList ++ []) :=
    ToLower_ascii caseTable _ (by decide)
  have hd : ¬ MatchesAny (ToLower caseTable ("developer".toList ++ " ".toList ++ [])) devWords := by
    rw [← has_devPattern, ht]
    decide
  refine ⟨?_, fun h => hd ⟨_, by decide, h⟩, fun h => hd ⟨_, by decide, h⟩⟩
  rw [inferEnv_ascii caseTable "developer".toList [] (by decide)]
  decide

/-! ## Positions of the flat-format fields (claim C11) -/

theorem keepParts_get (raw : List (List Char)) :
    ∀ n : Nat, (∀ j ≤ n, ∃ f, raw.get? j = some f ∧ TrimSpace f ≠ []) →
      (keepParts raw).get? n = (raw.get? n).map TrimSpace := by
  induction raw with
  | nil =>
    intro n h
    obtain ⟨f, hf, _⟩ := h 0 (Nat.zero_le n)
    simp at hf
  | cons p ps ih =>
    intro n h
    obtain ⟨f, hf, hne⟩ := h 0 (Nat.zero_le n)
    simp only [List.get?_cons_zero, Option.some.injEq] at hf
    subst hf
    simp only [keepParts, hne, ne_eq, not_false_eq_true, if_true]
    cases n with
    | zero => simp
    | succ m =>
      simp only [List.get?_cons_succ]
      apply ih m
      intro j hj
      have := h (j + 1) (by omega)
      simpa using this

theorem parse_teamIDs_of_data (content l : List Char) (h : IsDataLine content l)
    (h3 : 3 ≤ (fieldsOf l).length) :
    (parseSemicolonLine content).TeamIDs = (fieldsOf l).drop 2 := by
  obtain ⟨f1, f2, f3, fs, hf⟩ := fields_of_three h3
  rw [parse_of_data content l h, hf]
  rfl

/-- C11, as stated, fails: in the data line `g;t;d;;pp` the first two fields are
non-empty and there are four non-empty fields, the fourth field is empty, and the parsed
team at index 1 is `pp`, the fifth field, not the trimmed fourth field. -/
theorem positional_counterexample :
    IsDataLine "g;t;d;;pp".toList "g;t;d;;pp".toList ∧
    (fieldsOf "g;t;d;;pp".toList).length = 4 ∧
    ((Split ';' (TrimSpace "g;t;d;;pp".toList)).get? (1 + 2)).map TrimSpace = some [] ∧
    (parseSemicolonLine "g;t;d;;pp".toList).TeamIDs.get? 1 = some "pp".toList ∧
    (parseSemicolonLine "g;t;d;;pp".toList).TeamIDs.get? 1 ≠
      ((Split ';' (TrimSpace "g;t;d;;pp".toList)).get? (1 + 2)).map TrimSpace :=
  ⟨⟨[], [], by decide, by decide, by decide⟩, by decide, by decide, by decide, by decide⟩

/-- C11, amended.  For a data line with at least three fields that are non-empty after
trimming, the parsed team at index `k` is the field number `k + 3` among the fields that
are non-empty after trimming; when none of the first `k + 3` fields of the line is empty
after trimming, it is the trimmed field number `k + 3` of the line. -/
theorem positional_among_nonempty (content l : List Char) (k : Nat)
    (h : IsDataLine content l) :
    (3 ≤ (fieldsOf l).length →
      (parseSemicolonLine content).TeamIDs.get? k = (fieldsOf l).get? (k + 2)) ∧
    ((∀ j ≤ k + 2, ∃ f, (Split ';' (TrimSpace l)).get? j = some f ∧ TrimSpace f ≠ []) →
      ∃ f, (Split ';' (TrimSpace l)).get? (k + 2) = some f ∧
        (parseSemicolonLine content).TeamIDs.get? k = some (TrimSpace f)) := by
  have hdrop : ∀ (xs : List (List Char)), (xs.drop 2).get? k = xs.get? (k + 2) := by
    intro xs
    simp [Nat.add_comm]
  constructor
  · intro h3
    rw [parse_teamIDs_of_data content l h h3, hdrop]
  · intro hall
    obtain ⟨f, hf, _⟩ := hall (k + 2) (Nat.le_refl _)
    have hk : ∀ n ≤ k + 2, (fieldsOf l).get? n = ((Split ';' (TrimSpace l)).get? n).map TrimSpace := by
      intro n hn
      unfold fieldsOf
      rw [← keepParts_eq]
      exact keepParts_get _ n (fun j hj => hall j (by omega))
    have h3 : 3 ≤ (fieldsOf l).length := by
      have h2 := hk 2 (by omega)
      obtain ⟨g, hg, _⟩ := hall 2 (by omega)
      rw [hg] at h2
      by_contra hlt
      rw [List.get?_eq_none.2 (by omega)] at h2
      cases h2
    refine ⟨f, hf, ?_⟩
    rw [parse_teamIDs_of_data content l h h3, hdrop, hk (k + 2) (Nat.le_refl _), hf]
    rfl

/-- Witness for C11 amended: a padded line whose last field is empty. -/
theorem positional_among_nonempty_witness :
    ∃ f, (Split ';' (TrimSpace " g ; t ; d ; q ;".toList)).get? (1 + 2) = some f ∧
      (parseSemicolonLine " g ; t ; d ; q ;".toList).TeamIDs.get? 1 = some (TrimSpace f) :=
  (positional_among_nonempty " g ; t ; d ; q ;".toList " g ; t ; d ; q ;".toList 1
    ⟨[], [], by decide, by decide, by decide⟩).2 (by decide)

/-! ## Boundary rule and reported environment (claims C19, C20) -/

/-- C19. A pattern of the inference matches a text exactly when one of its keywords
occurs in it with no ASCII letter, digit or underscore immediately before or after the
occurrence.  A keyword glued to a digit or an underscore is not recognised, while one set
off by a dot or a hyphen is. -/
theorem boundary_rule (caseTable : Char → Char) (s : List Char) :
    (has s prodPattern = true ↔ ∃ kw ∈ prodWords, WholeWord s kw) ∧
    (has s ppPattern = true ↔ ∃ kw ∈ ppWords, WholeWord s kw) ∧
    (has s qualifPattern = true ↔ ∃ kw ∈ qualifWords, WholeWord s kw) ∧
    (has s devPattern = true ↔ ∃ kw ∈ devWords, WholeWord s kw) ∧
    (has s drPattern = true ↔ ∃ kw ∈ drWords, WholeWord s kw) ∧
    InferEnv caseTable "prod01".toList [] = Env.Unknown ∧
    InferEnv caseTable "my_dev_ns".toList [] = Env.Unknown ∧
    InferEnv caseTable "prod.01".toList [] = Env.Prod ∧
    InferEnv caseTable "my-dev-ns".toList [] = Env.Dev := by
  refine ⟨has_prodPattern s, has_ppPattern s, has_qualifPattern s, has_devPattern s,
    has_drPattern s, ?_, ?_, ?_, ?_⟩
  · rw [inferEnv_ascii caseTable "prod01".toList [] (by decide)]
    decide
  · rw [inferEnv_ascii caseTable "my_dev_ns".toList [] (by decide)]
    decide
  · rw [inferEnv_ascii caseTable "prod.01".toList [] (by decide)]
    decide
  · rw [inferEnv_ascii caseTable "my-dev-ns".toList [] (by decide)]
    decide

theorem position_unique {pos1 pos2 : Nat} {env : Env}
    (h1 : envPositions.get? pos1 = some env) (h2 : envPositions.get? pos2 = some env) :
    pos1 = pos2 := by
  have e1 := (order_of_position h1).1
  have e2 := (order_of_position h2).1
  rw [e1] at e2
  simpa using e2

/-- C20. The environment reported by the selection is the inferred one when that is a
concrete environment whose position is inside the team list, and UNKNOWN on the fallback
path, also when the inferred environment is concrete; for a concrete inferred
environment the two agree exactly when the position is inside the list.  Hints that
classify DR with three teams report UNKNOWN. -/
theorem teamIDAuto_reported_env (caseTable : Char → Char) (t : TokenInfo) (a b : List Char)
    (d : Int) :
    (∀ pos, envPositions.get? pos = some (InferEnv caseTable a b) → pos < t.TeamIDs.length →
      (t.TeamIDAuto caseTable a b d).map Prod.snd = some (InferEnv caseTable a b)) ∧
    ((InferEnv caseTable a b = Env.Unknown ∨
        ∃ pos, envPositions.get? pos = some (InferEnv caseTable a b) ∧
          t.TeamIDs.length ≤ pos) →
      (t.TeamIDAuto caseTable a b d).map Prod.snd = some Env.Unknown) ∧
    (InferEnv caseTable a b ≠ Env.Unknown →
      ((t.TeamIDAuto caseTable a b d).map Prod.snd = some (InferEnv caseTable a b) ↔
        ∃ pos, envPositions.get? pos = some (InferEnv caseTable a b) ∧
          pos < t.TeamIDs.length)) ∧
    (∀ x y z : List Char, InferEnv caseTable a b = Env.DR →
      (TokenInfo.TeamIDAuto caseTable ⟨t.IbmInstanceID, t.IamToken, [x, y, z]⟩ a b d).map
        Prod.snd = some Env.Unknown) := by
  have hmap : ∀ (u : TokenInfo) (pos : Nat),
      envPositions.get? pos = some (InferEnv caseTable a b) → pos < u.TeamIDs.length →
      (u.TeamIDAuto caseTable a b d).map Prod.snd = some (InferEnv caseTable a b) := by
    intro u pos hpos hlt
    rw [teamIDAuto_mapped caseTable u a b d pos _ _ hpos rfl (List.get?_eq_get hlt)]
    rfl
  have hfb : ∀ (u : TokenInfo),
      (InferEnv caseTable a b = Env.Unknown ∨
        ∃ pos, envPositions.get? pos = some (InferEnv caseTable a b) ∧
          u.TeamIDs.length ≤ pos) →
      (u.TeamIDAuto caseTable a b d).map Prod.snd = some Env.Unknown := by
    intro u h
    obtain ⟨id, e, _⟩ := fallbackTeam_mem u d
    rw [teamIDAuto_fallback caseTable u a b d h, e]
    rfl
  refine ⟨hmap t, hfb t, ?_, ?_⟩
  · intro hne
    constructor
    · intro h
      rcases teamIDAuto_cases caseTable t a b with ⟨pos, id, hpos, hid⟩ | hf
      · refine ⟨pos, hpos, ?_⟩
        by_contra hge
        rw [List.get?_eq_none.2 (by omega)] at hid
        cases hid
      · rw [hfb t hf] at h
        exact absurd (Option.some.inj h).symm hne
    · rintro ⟨pos, hpos, hlt⟩
      exact hmap t pos hpos hlt
  · intro x y z hdr
    apply hfb
    right
    refine ⟨4, ?_, by simp⟩
    rw [hdr]
    rfl

/-- Witness for C20: hints classifying DR on a three-element list. -/
theorem teamIDAuto_reported_env_witness :
    (TokenInfo.TeamIDAuto plainTable ⟨"g".toList, "t".toList, ["a".toList, "b".toList, "c".toList]⟩
      "dr-site".toList [] 1).map Prod.snd = some Env.Unknown :=
  (teamIDAuto_reported_env plainTable ⟨"g".toList, "t".toList, ["a".toList, "b".toList, "c".toList]⟩
    "dr-site".toList [] 1).2.1 (Or.inr ⟨4, by decide, by decide⟩)

end Tokens

namespace JsonStore

open Tokens

/-! ## Lemmas on the JSON store -/

theorem TrimSpace_blank {a : List Char} (h : Blank a) : TrimSpace a = [] := by
  unfold TrimSpace
  have : List.dropWhile isSpace a = [] := by
    rw [List.dropWhile_eq_nil_iff]
    exact h
  rw [this]
  exact List.rdropWhile_nil _

theorem TrimSpace_idem (a : List Char) : TrimSpace (TrimSpace a) = TrimSpace a := by
  by_cases h : TrimSpace a = []
  · rw [h]
    rfl
  · exact TrimSpace_of_trimmed (trimmed_TrimSpace a h)

theorem json_load_blank (caseTable : Char → Char) (json : JsonDecoder) (d : Dir) (s : Store)
    (a : List Char) (h : TrimSpace a = []) :
    LoadForAccount caseTable json d s a = ((none, some LoadError.emptyAccount), s) := by
  simp [LoadForAccount, h]

theorem json_load_hit (caseTable : Char → Char) (json : JsonDecoder) (d : Dir) (s : Store)
    (a : List Char) (tok : Token) (h : TrimSpace a ≠ [])
    (hc : s.cache (TrimSpace a) = some tok) :
    LoadForAccount caseTable json d s a = ((some tok, none), s) := by
  simp [LoadForAccount, h, hc]

theorem json_load_direct (caseTable : Char → Char) (json : JsonDecoder) (d : Dir) (s : Store)
    (a : List Char) (tok : Token) (h : TrimSpace a ≠ [])
    (hc : s.cache (TrimSpace a) = none)
    (ht : tryCandidates json d (TrimSpace a) (candidates (TrimSpace a)) = some tok) :
    LoadForAccount caseTable json d s a = ((some tok, none), s.put (TrimSpace a) tok) := by
  simp [LoadForAccount, h, hc, ht]

theorem json_load_readDir (caseTable : Char → Char) (json : JsonDecoder) (d : Dir) (s : Store)
    (a : List Char) (h : TrimSpace a ≠ [])
    (hc : s.cache (TrimSpace a) = none)
    (ht : tryCandidates json d (TrimSpace a) (candidates (TrimSpace a)) = none)
    (hd : d.readDir = none) :
    LoadForAccount caseTable json d s a = ((none, some LoadError.readDir), s) := by
  simp [LoadForAccount, h, hc, ht, hd]

theorem json_load_scan (caseTable : Char → Char) (json : JsonDecoder) (d : Dir) (s : Store)
    (a : List Char) (entries : List DirEntry) (tok : Token) (h : TrimSpace a ≠ [])
    (hc : s.cache (TrimSpace a) = none)
    (ht : tryCandidates json d (TrimSpace a) (candidates (TrimSpace a)) = none)
    (hd : d.readDir = some entries)
    (hs : scanEntries caseTable json d (TrimSpace a) entries = some tok) :
    LoadForAccount caseTable json d s a = ((some tok, none), s.put (TrimSpace a) tok) := by
  simp [LoadForAccount, h, hc, ht, hd, hs]

theorem json_load_notFound (caseTable : Char → Char) (json : JsonDecoder) (d : Dir) (s : Store)
    (a : List Char) (entries : List DirEntry) (h : TrimSpace a ≠ [])
    (hc : s.cache (TrimSpace a) = none)
    (ht : tryCandidates json d (TrimSpace a) (candidates (TrimSpace a)) = none)
    (hd : d.readDir = some entries)
    (hs : scanEntries caseTable json d (TrimSpace a) entries = none) :
    LoadForAccount caseTable json d s a = ((none, some LoadError.notFound), s) := by
  simp [LoadForAccount, h, hc, ht, hd, hs]

/-- The ways a call of `LoadForAccount` can end. -/
theorem json_load_cases (caseTable : Char → Char) (json : JsonDecoder) (d : Dir) (s : Store)
    (a : List Char) :
    (∃ e, LoadForAccount caseTable json d s a = ((none, some e), s)) ∨
    (TrimSpace a ≠ [] ∧ ∃ tok, s.cache (TrimSpace a) = some tok ∧
      LoadForAccount caseTable json d s a = ((some tok, none), s)) ∨
    (TrimSpace a ≠ [] ∧ s.cache (TrimSpace a) = none ∧ ∃ tok,
      tryCandidates json d (TrimSpace a) (candidates (TrimSpace a)) = some tok ∧
      LoadForAccount caseTable json d s a = ((some tok, none), s.put (TrimSpace a) tok)) ∨
    (TrimSpace a ≠ [] ∧ s.cache (TrimSpace a) = none ∧
      tryCandidates json d (TrimSpace a) (candidates (TrimSpace a)) = none ∧
      ∃ entries tok, d.readDir = some entries ∧
      scanEntries caseTable json d (TrimSpace a) entries = some tok ∧
      LoadForAccount caseTable json d s a = ((some tok, none), s.put (TrimSpace a) tok)) := by
  by_cases h : TrimSpace a = []
  · exact Or.inl ⟨_, json_load_blank caseTable json d s a h⟩
  · cases hc : s.cache (TrimSpace a) with
    | some tok => exact Or.inr (Or.inl ⟨h, tok, rfl, json_load_hit caseTable json d s a tok h hc⟩)
    | none =>
      cases ht : tryCandidates json d (TrimSpace a) (candidates (TrimSpace a)) with
      | some tok =>
        exact Or.inr (Or.inr (Or.inl ⟨h, rfl, tok, rfl,
          json_load_direct caseTable json d s a tok h hc ht⟩))
      | none =>
        cases hd : d.readDir with
        | none => exact Or.inl ⟨_, json_load_readDir caseTable json d s a h hc ht hd⟩
        | some entries =>
          cases hs : scanEntries caseTable json d (TrimSpace a) entries with
          | none => exact Or.inl ⟨_, json_load_notFound caseTable json d s a entries h hc ht hd hs⟩
          | some tok =>
            exact Or.inr (Or.inr (Or.inr ⟨h, rfl, rfl, entries, tok, rfl, hs,
              json_load_scan caseTable json d s a entries tok h hc ht hd hs⟩))

theorem put_cache_self (s : Store) (k : List Char) (tok : Token) :
    (s.put k tok).cache k = some tok := by
  simp [Store.put]

/-- After a successful call the record is in the cache under the trimmed account. -/
theorem json_load_cached (caseTable : Char → Char) (json : JsonDecoder) (d : Dir) (s : Store)
    (a : List Char) (r : Token)
    (h : (LoadForAccount caseTable json d s a).1 = (some r, none)) :
    TrimSpace a ≠ [] ∧ (LoadForAccount caseTable json d s a).2.cache (TrimSpace a) = some r := by
  rcases json_load_cases caseTable json d s a with ⟨e, he⟩ | ⟨hne, tok, hc, he⟩ |
      ⟨hne, _, tok, _, he⟩ | ⟨hne, _, _, entries, tok, _, _, he⟩
  · rw [he] at h
    simp at h
  · rw [he] at h ⊢
    simp only [Prod.mk.injEq, Option.some.injEq, and_true] at h
    subst h
    exact ⟨hne, hc⟩
  · rw [he] at h ⊢
    simp only [Prod.mk.injEq, Option.some.injEq, and_true] at h
    subst h
    exact ⟨hne, put_cache_self _ _ _⟩
  · rw [he] at h ⊢
    simp only [Prod.mk.injEq, Option.some.injEq, and_true] at h
    subst h
    exact ⟨hne, put_cache_self _ _ _⟩

/-! ## Input validation and the cache (claims C12, C13) -/

/-- C12. For an account identifier that is empty or consists of white space only, the
load returns an error and no record and leaves the store as it was; the result is the
same for every store, directory and decoder, so neither the cache nor any file is
consulted. -/
theorem json_blank_account_rejected (caseTable : Char → Char) (json : JsonDecoder) (d : Dir)
    (s : Store) (a : List Char) (h : Blank a) :
    LoadForAccount caseTable json d s a = ((none, some LoadError.emptyAccount), s) ∧
    ∀ (caseTable2 : Char → Char) (json2 : JsonDecoder) (d2 : Dir) (s2 : Store),
      (LoadForAccount caseTable2 json2 d2 s2 a).1 = (LoadForAccount caseTable json d s a).1 ∧
      (LoadForAccount caseTable2 json2 d2 s2 a).2 = s2 := by
  have ht := TrimSpace_blank h
  refine ⟨json_load_blank caseTable json d s a ht, ?_⟩
  intro caseTable2 json2 d2 s2
  rw [json_load_blank caseTable json d s a ht, json_load_blank caseTable2 json2 d2 s2 a ht]
  exact ⟨rfl, rfl⟩

/-- Witness for C12: an identifier made of a blank and a tab, with a matching file
present. -/
theorem json_blank_account_rejected_witness :
    (LoadForAccount plainTable sampleJson (oneFileDir " \t.json".toList docFull) NewStore
      " \t".toList).1 = (none, some LoadError.emptyAccount) :=
  congrArg Prod.fst
    (json_blank_account_rejected plainTable sampleJson (oneFileDir " \t.json".toList docFull)
      NewStore " \t".toList (by decide)).1

/-- C13. After a successful load of an account with record `r`, a second load of the
same account on the resulting store returns `r` again for every directory and leaves the
store unchanged: the second result does not depend on any file. -/
theorem json_cache_read_through (caseTable : Char → Char) (json : JsonDecoder) (d1 : Dir)
    (s : Store) (a : List Char) (r : Token)
    (h : (LoadForAccount caseTable json d1 s a).1 = (some r, none)) :
    ∀ d2 : Dir,
      LoadForAccount caseTable json d2 (LoadForAccount caseTable json d1 s a).2 a =
        ((some r, none), (LoadForAccount caseTable json d1 s a).2) := by
  intro d2
  obtain ⟨hne, hc⟩ := json_load_cached caseTable json d1 s a r h
  exact json_load_hit caseTable json d2 _ a r hne hc

/-- Witness for C13: the second load runs on a directory that cannot be read. -/
theorem json_cache_read_through_witness :
    (LoadForAccount plainTable sampleJson ⟨fun _ => none, none⟩
      (LoadForAccount plainTable sampleJson (oneFileDir "acc.json".toList docFull) NewStore
        "acc".toList).2 "acc".toList).1 =
      (some ⟨"acc".toList, "x".toList, "i".toList, ["a".toList]⟩, none) :=
  congrArg Prod.fst
    (json_cache_read_through plainTable sampleJson (oneFileDir "acc.json".toList docFull)
      NewStore "acc".toList ⟨"acc".toList, "x".toList, "i".toList, ["a".toList]⟩ (by decide)
      ⟨fun _ => none, none⟩)

/-! ## Records accepted by the JSON store (claims C14, C15, C16) -/

theorem tryCandidates_account (json : JsonDecoder) (d : Dir) (a : List Char)
    (ps : List (List Char)) (tok : Token) (h : tryCandidates json d a ps = some tok) :
    tok.IbmAccount = a := by
  induction ps with
  | nil => simp [tryCandidates] at h
  | cons p ps ih =>
    simp only [tryCandidates] at h
    cases hr : readTokenFile json d p with
    | error e =>
      rw [hr] at h
      exact ih h
    | ok t =>
      rw [hr] at h
      dsimp only at h
      by_cases he : t.IbmAccount = []
      · rw [if_pos he] at h
        dsimp only at h
        rw [if_pos rfl] at h
        cases h
        rfl
      · rw [if_neg he] at h
        by_cases ha : t.IbmAccount = a
        · rw [if_pos ha] at h
          cases h
          exact ha
        · rw [if_neg ha] at h
          exact ih h

theorem scanEntries_account (caseTable : Char → Char) (json : JsonDecoder) (d : Dir)
    (a : List Char) (es : List DirEntry) (tok : Token)
    (h : scanEntries caseTable json d a es = some tok) :
    TrimSpace tok.IbmAccount = a := by
  induction es with
  | nil => simp [scanEntries] at h
  | cons e es ih =>
    simp only [scanEntries] at h
    split at h
    · exact ih h
    · split at h
      · exact ih h
      · split at h
        · exact ih h
        · split at h
          · rename_i heq
            cases h
            exact heq
          · exact ih h

theorem wellKeyed_new : WellKeyed NewStore := by
  intro k tok h
  simp [NewStore] at h

theorem wellKeyed_put (s : Store) (k : List Char) (tok : Token) (hs : WellKeyed s)
    (hk : TrimSpace tok.IbmAccount = k) (hne : k ≠ []) : WellKeyed (s.put k tok) := by
  intro k2 tok2 h
  simp only [Store.put] at h
  split at h
  · rename_i heq
    cases h
    rw [heq]
    exact ⟨hk, hne⟩
  · exact hs k2 tok2 h

theorem wellKeyed_load (caseTable : Char → Char) (json : JsonDecoder) (d : Dir) (s : Store)
    (a : List Char) (hs : WellKeyed s) :
    WellKeyed (LoadForAccount caseTable json d s a).2 := by
  rcases json_load_cases caseTable json d s a with ⟨e, he⟩ | ⟨hne, tok, hc, he⟩ |
      ⟨hne, _, tok, ht, he⟩ | ⟨hne, _, _, entries, tok, _, hsc, he⟩
  · rw [he]
    exact hs
  · rw [he]
    exact hs
  · rw [he]
    refine wellKeyed_put s _ tok hs ?_ hne
    rw [tryCandidates_account json d _ _ tok ht]
    exact TrimSpace_idem a
  · rw [he]
    exact wellKeyed_put s _ tok hs (scanEntries_account caseTable json d _ entries tok hsc) hne

theorem json_load_account (caseTable : Char → Char) (json : JsonDecoder) (d : Dir) (s : Store)
    (a : List Char) (r : Token) (hs : WellKeyed s)
    (h : (LoadForAccount caseTable json d s a).1 = (some r, none)) :
    TrimSpace r.IbmAccount = TrimSpace a := by
  have hw := wellKeyed_load caseTable json d s a hs
  obtain ⟨_, hc⟩ := json_load_cached caseTable json d s a r h
  exact (hw _ _ hc).1

theorem readTokenFile_object (json : JsonDecoder) (d : Dir) (path b : List Char) (tok : Token)
    (hb : d.readFile path = some b) (ho : json.object (trimBOMAndSpace b) = some tok) :
    readTokenFile json d path =
      if AllEmpty tok then .error ReadError.emptyToken else .ok tok := by
  simp only [readTokenFile, hb, ho, AllEmpty, List.length_eq_zero]
  by_cases h : tok.IamToken = [] ∧ tok.IbmInstanceID = [] ∧ tok.IbmAccount = [] ∧ tok.TeamIDs = []
  · have h2 : tok.IbmAccount = [] ∧ tok.IamToken = [] ∧ tok.IbmInstanceID = [] ∧ tok.TeamIDs = [] :=
      ⟨h.2.2.1, h.1, h.2.1, h.2.2.2⟩
    rw [if_pos h, if_pos h2]
  · have h2 : ¬ (tok.IbmAccount = [] ∧ tok.IamToken = [] ∧ tok.IbmInstanceID = [] ∧
        tok.TeamIDs = []) := fun g => h ⟨g.2.1, g.2.2.1, g.1, g.2.2.2⟩
    rw [if_neg h, if_neg h2]

/-- C14, evaluated on the code: the file `acc.json` holds the list `[{}]`, whose first
element has every field empty.  `readTokenFile` returns that element without error, and
the load of `acc` returns and caches a record in which only the account is filled in. -/
theorem json_empty_list_accepted :
    sampleJson.object (trimBOMAndSpace docEmptyList) = none ∧
    sampleJson.list (trimBOMAndSpace docEmptyList) = some [Token.zero] ∧
    readTokenFile sampleJson (oneFileDir "acc.json".toList docEmptyList) "acc.json".toList =
      .ok Token.zero ∧
    (LoadForAccount plainTable sampleJson (oneFileDir "acc.json".toList docEmptyList) NewStore
      "acc".toList).1 = (some ⟨"acc".toList, [], [], []⟩, none) ∧
    (LoadForAccount plainTable sampleJson (oneFileDir "acc.json".toList docEmptyList) NewStore
      "acc".toList).2.cache "acc".toList = some ⟨"acc".toList, [], [], []⟩ :=
  ⟨by decide, by decide, rfl, by decide, by decide⟩

/-- C15, as stated, fails: the file `token-acc.json` holds `{"iamToken":"x"}`; the load of
`acc` on the new store returns the record with the account filled in and with an empty
instance and no teams. -/
theorem json_partial_record_counterexample :
    (LoadForAccount plainTable sampleJson (oneFileDir "token-acc.json".toList docTokenOnly)
      NewStore "acc".toList).1 = (some ⟨"acc".toList, "x".toList, [], []⟩, none) ∧
    (⟨"acc".toList, "x".toList, [], []⟩ : Token).IbmInstanceID = [] ∧
    (⟨"acc".toList, "x".toList, [], []⟩ : Token).TeamIDs = [] := by
  decide

/-- C15, amended.  The new store is well keyed and every load keeps the store well
keyed.  On a well-keyed store every record that the load returns has a non-empty
account and is in the cache after the call.  A file that decodes as an object is
rejected exactly when all four fields are empty; a partially populated record is
accepted. -/
theorem json_loaded_account_nonempty (caseTable : Char → Char) (json : JsonDecoder) (d : Dir)
    (s : Store) (a : List Char) :
    WellKeyed NewStore ∧
    (WellKeyed s → WellKeyed (LoadForAccount caseTable json d s a).2) ∧
    (WellKeyed s → ∀ r, (LoadForAccount caseTable json d s a).1 = (some r, none) →
      r.IbmAccount ≠ [] ∧
      (LoadForAccount caseTable json d s a).2.cache (TrimSpace a) = some r) ∧
    (∀ path b tok, d.readFile path = some b → json.object (trimBOMAndSpace b) = some tok →
      (AllEmpty tok → readTokenFile json d path = .error ReadError.emptyToken) ∧
      (¬ AllEmpty tok → readTokenFile json d path = .ok tok)) := by
  refine ⟨wellKeyed_new, wellKeyed_load caseTable json d s a, ?_, ?_⟩
  · intro hs r h
    obtain ⟨hne, hc⟩ := json_load_cached caseTable json d s a r h
    refine ⟨?_, hc⟩
    intro he
    have ht := json_load_account caseTable json d s a r hs h
    rw [he] at ht
    exact hne ht.symm
  · intro path b tok hb ho
    rw [readTokenFile_object json d path b tok hb ho]
    exact ⟨fun h => if_pos h, fun h => if_neg h⟩

/-- Witness for C15 amended: the partially populated record of `token-acc.json` is
accepted and has a non-empty account. -/
theorem json_loaded_account_nonempty_witness :
    (⟨"acc".toList, "x".toList, [], []⟩ : Token).IbmAccount ≠ [] ∧
    (LoadForAccount plainTable sampleJson (oneFileDir "token-acc.json".toList docTokenOnly)
      NewStore "acc".toList).2.cache (TrimSpace "acc".toList) =
        some ⟨"acc".toList, "x".toList, [], []⟩ :=
  (json_loaded_account_nonempty plainTable sampleJson
    (oneFileDir "token-acc.json".toList docTokenOnly) NewStore "acc".toList).2.2.1
    (json_loaded_account_nonempty plainTable sampleJson
      (oneFileDir "token-acc.json".toList docTokenOnly) NewStore "acc".toList).1
    ⟨"acc".toList, "x".toList, [], []⟩ (by decide)

/-- C16, as stated, fails: the file `x.json` holds `{"ibmAccount":" acc ","iamToken":"x"}`;
no direct name exists, the scan accepts the file because its account is `acc` after
trimming, and the record returned for `acc` carries the padded account. -/
theorem json_padded_account_counterexample :
    (LoadForAccount plainTable sampleJson (oneFileDir "x.json".toList docPadded) NewStore
      "acc".toList).1 = (some ⟨" acc ".toList, "x".toList, [], []⟩, none) ∧
    (⟨" acc ".toList, "x".toList, [], []⟩ : Token).IbmAccount ≠ TrimSpace "acc".toList := by
  decide

/-- C16, amended.  On a well-keyed store, the account of a record returned by the load
equals the trimmed requested identifier after trimming; when the record comes from a
direct-name candidate, the account equals the trimmed requested identifier exactly. -/
theorem json_account_matches_trimmed (caseTable : Char → Char) (json : JsonDecoder) (d : Dir)
    (s : Store) (a : List Char) (hs : WellKeyed s) :
    (∀ r, (LoadForAccount caseTable json d s a).1 = (some r, none) →
      TrimSpace r.IbmAccount = TrimSpace a) ∧
    (TrimSpace a ≠ [] → s.cache (TrimSpace a) = none → ∀ tok,
      tryCandidates json d (TrimSpace a) (candidates (TrimSpace a)) = some tok →
      (LoadForAccount caseTable json d s a).1 = (some tok, none) ∧
        tok.IbmAccount = TrimSpace a) := by
  refine ⟨fun r h => json_load_account caseTable json d s a r hs h, ?_⟩
  intro hne hc tok ht
  rw [json_load_direct caseTable json d s a tok hne hc ht]
  exact ⟨rfl, tryCandidates_account json d _ _ tok ht⟩

/-- Witness for C16 amended: the padded record found by the scan. -/
theorem json_account_matches_trimmed_witness :
    TrimSpace (⟨" acc ".toList, "x".toList, [], []⟩ : Token).IbmAccount = TrimSpace "acc".toList :=
  (json_account_matches_trimmed plainTable sampleJson (oneFileDir "x.json".toList docPadded)
    NewStore "acc".toList wellKeyed_new).1 ⟨" acc ".toList, "x".toList, [], []⟩ (by decide)

/-! ## The directory scan (claim C17) -/

theorem tryCandidates_none (json : JsonDecoder) (d : Dir) (a : List Char)
    (ps : List (List Char))
    (h : ∀ p ∈ ps, ∀ tok, readTokenFile json d p = .ok tok →
      tok.IbmAccount ≠ [] ∧ tok.IbmAccount ≠ a) :
    tryCandidates json d a ps = none := by
  induction ps with
  | nil => rfl
  | cons p ps ih =>
    have ih2 := ih (fun q hq => h q (List.mem_cons_of_mem _ hq))
    simp only [tryCandidates]
    cases hr : readTokenFile json d p with
    | error e => exact ih2
    | ok t =>
      obtain ⟨h1, h2⟩ := h p (List.mem_cons_self _ _) t hr
      dsimp only
      rw [if_neg h1, if_neg h2]
      exact ih2

theorem scan_skip (caseTable : Char → Char) (json : JsonDecoder) (d : Dir) (a : List Char)
    (e : DirEntry) (es : List DirEntry) (h : ∀ t, ¬ Qualifies caseTable json d a e t) :
    scanEntries caseTable json d a (e :: es) = scanEntries caseTable json d a es := by
  simp only [scanEntries]
  by_cases h1 : e.IsDir = true
  · rw [if_pos h1]
  · rw [if_neg h1]
    by_cases h2 : endsWith (ToLower caseTable e.Name) ".json".toList = true
    · rw [if_neg (not_not.2 h2)]
      cases hr : readTokenFile json d e.Name with
      | error err => rfl
      | ok t =>
        dsimp only
        by_cases h3 : TrimSpace t.IbmAccount = a
        · exact absurd ⟨by simpa using h1, h2, hr, h3⟩ (h t)
        · rw [if_neg h3]
    · rw [if_pos h2]

theorem scan_take (caseTable : Char → Char) (json : JsonDecoder) (d : Dir) (a : List Char)
    (e : DirEntry) (es : List DirEntry) (tok : Token)
    (h : Qualifies caseTable json d a e tok) :
    scanEntries caseTable json d a (e :: es) = some tok := by
  obtain ⟨h1, h2, h3, h4⟩ := h
  simp only [scanEntries, h1, h2, h3, h4]
  simp

theorem scan_first (caseTable : Char → Char) (json : JsonDecoder) (d : Dir) (a : List Char)
    (pre post : List DirEntry) (e : DirEntry) (tok : Token)
    (hpre : ∀ x ∈ pre, ∀ t, ¬ Qualifies caseTable json d a x t)
    (he : Qualifies caseTable json d a e tok) :
    scanEntries caseTable json d a (pre ++ e :: post) = some tok := by
  induction pre with
  | nil => exact scan_take caseTable json d a e post tok he
  | cons x xs ih =>
    rw [List.cons_append, scan_skip caseTable json d a x _ (hpre x (List.mem_cons_self _ _))]
    exact ih (fun y hy => hpre y (List.mem_cons_of_mem _ hy))

theorem scan_none (caseTable : Char → Char) (json : JsonDecoder) (d : Dir) (a : List Char)
    (es : List DirEntry) (h : ∀ x ∈ es, ∀ t, ¬ Qualifies caseTable json d a x t) :
    scanEntries caseTable json d a es = none := by
  induction es with
  | nil => rfl
  | cons x xs ih =>
    rw [scan_skip caseTable json d a x _ (h x (List.mem_cons_self _ _))]
    exact ih (fun y hy => h y (List.mem_cons_of_mem _ hy))

theorem passesOver_sound (caseTable : Char → Char) (json : JsonDecoder) (d : Dir)
    (a : List Char) (e : DirEntry) (h : passesOver caseTable json d a e = true) :
    ∀ t, ¬ Qualifies caseTable json d a e t := by
  rintro t ⟨h1, h2, h3, h4⟩
  simp only [passesOver, h1, h2, h3, h4] at h
  simp at h

theorem notAccepted_sound (json : JsonDecoder) (d : Dir) (a : List Char)
    (h : ∀ p ∈ candidates a, notAccepted json d a p = true) : NoCandidate json d a := by
  intro p hp tok hr
  have := h p hp
  simp only [notAccepted, hr] at this
  simpa using this

/-- C17. When the account is non-empty after trimming, is not in the cache, no
direct-name candidate is accepted and the directory can be listed, the load returns the
record of the first entry, in listing order, that qualifies: not a directory, a name
ending in `.json` without regard to case, a file that parses, and an account equal to the
requested one after trimming.  Entries before it that do not qualify are passed over
without an error.  When no entry qualifies the load returns the not-found error and
leaves the store unchanged. -/
theorem json_directory_scan (caseTable : Char → Char) (json : JsonDecoder) (d : Dir)
    (s : Store) (a : List Char) (entries : List DirEntry)
    (ha : TrimSpace a ≠ []) (hmiss : s.cache (TrimSpace a) = none)
    (hnc : NoCandidate json d (TrimSpace a)) (hdir : d.readDir = some entries) :
    (∀ pre e post tok, entries = pre ++ e :: post →
      (∀ x ∈ pre, ∀ t, ¬ Qualifies caseTable json d (TrimSpace a) x t) →
      Qualifies caseTable json d (TrimSpace a) e tok →
      LoadForAccount caseTable json d s a = ((some tok, none), s.put (TrimSpace a) tok)) ∧
    ((∀ x ∈ entries, ∀ t, ¬ Qualifies caseTable json d (TrimSpace a) x t) →
      LoadForAccount caseTable json d s a = ((none, some LoadError.notFound), s)) := by
  have ht := tryCandidates_none json d (TrimSpace a) (candidates (TrimSpace a)) hnc
  constructor
  · intro pre e post tok hent hpre he
    apply json_load_scan caseTable json d s a entries tok ha hmiss ht hdir
    rw [hent]
    exact scan_first caseTable json d _ pre post e tok hpre he
  · intro hall
    exact json_load_notFound caseTable json d s a entries ha hmiss ht hdir
      (scan_none caseTable json d _ entries hall)

/-! ## The fixed-index policy (claim C18) -/

theorem teamAtZero_cons (t : Token) (y : List Char) (rest : List (List Char))
    (h : t.TeamIDs = y :: rest) :
    teamAtZero t =
      if TrimSpace y ≠ [] then some (TrimSpace y, none)
      else some ([], some TeamError.blankTeamIDs) := by
  simp [teamAtZero, index, h]

theorem json_teamIDAuto_nf (t : Token) :
    t.TeamIDAuto =
      match t.TeamIDs.get? 0 with
      | none => some ([], some TeamError.noTeamIDs)
      | some y =>
        match t.TeamIDs.get? 3 with
        | some x =>
          if TrimSpace x ≠ [] then some (TrimSpace x, none)
          else if TrimSpace y ≠ [] then some (TrimSpace y, none)
          else some ([], some TeamError.blankTeamIDs)
        | none =>
          if TrimSpace y ≠ [] then some (TrimSpace y, none)
          else some ([], some TeamError.blankTeamIDs) := by
  rcases hT : t.TeamIDs with _ | ⟨y, _ | ⟨b, _ | ⟨c, _ | ⟨x, rest⟩⟩⟩⟩
  · simp [Token.TeamIDAuto, hT]
  · simp [Token.TeamIDAuto, hT, defaultOpsIndex, teamAtZero_cons t y _ hT]
  · simp [Token.TeamIDAuto, hT, defaultOpsIndex, teamAtZero_cons t y _ hT]
  · simp [Token.TeamIDAuto, hT, defaultOpsIndex, teamAtZero_cons t y _ hT]
  · have hlen : ((rest.length + 1 + 1 + 1 + 1 : Nat) : Int) > 3 := by omega
    simp only [Token.TeamIDAuto, hT, defaultOpsIndex, teamAtZero_cons t y _ hT, index,
      List.length_cons, hlen]
    simp

/-- Witness for C17: the scan passes over a subdirectory, a text file and a file that
does not parse, and returns the record of `x.JSON`. -/
theorem json_directory_scan_witness :
    LoadForAccount plainTable sampleJson scanDir NewStore "acc".toList =
      ((some ⟨" acc ".toList, "x".toList, [], []⟩, none),
        NewStore.put (TrimSpace "acc".toList) ⟨" acc ".toList, "x".toList, [], []⟩) :=
  (json_directory_scan plainTable sampleJson scanDir NewStore "acc".toList
    [⟨"sub.json".toList, true⟩, ⟨"notes.txt".toList, false⟩,
      ⟨"bad.json".toList, false⟩, ⟨"x.JSON".toList, false⟩, ⟨"y.json".toList, false⟩]
    (by decide) rfl (notAccepted_sound sampleJson scanDir _ (by decide)) rfl).1
    [⟨"sub.json".toList, true⟩, ⟨"notes.txt".toList, false⟩, ⟨"bad.json".toList, false⟩]
    ⟨"x.JSON".toList, false⟩ [⟨"y.json".toList, false⟩]
    ⟨" acc ".toList, "x".toList, [], []⟩ rfl
    (fun x hx => passesOver_sound plainTable sampleJson scanDir _ x
      ((by decide : ∀ y ∈ ([⟨"sub.json".toList, true⟩, ⟨"notes.txt".toList, false⟩,
        ⟨"bad.json".toList, false⟩] : List DirEntry),
        passesOver plainTable sampleJson scanDir (TrimSpace "acc".toList) y = true) x hx))
    ⟨rfl, by decide, rfl, by decide⟩

/-- C18. The selection of the JSON store never reads outside the team list.  It returns
the trimmed team at index 3 when the list has more than three teams and that team is
non-empty after trimming; otherwise the trimmed team at index 0 when that team is
non-empty after trimming; otherwise an error.  It returns an error exactly when the list
is empty or both candidate teams are blank, an error comes with the empty string, and a
team returned without error is non-empty with no white space at either end. -/
theorem json_teamIDAuto_fixed_index (t : Token) :
    (t.TeamIDAuto).isSome = true ∧
    (∀ x, t.TeamIDs.get? 3 = some x → TrimSpace x ≠ [] →
      t.TeamIDAuto = some (TrimSpace x, none)) ∧
    ((∀ x, t.TeamIDs.get? 3 = some x → TrimSpace x = []) →
      ∀ y, t.TeamIDs.get? 0 = some y → TrimSpace y ≠ [] →
        t.TeamIDAuto = some (TrimSpace y, none)) ∧
    ((∃ id e, t.TeamIDAuto = some (id, some e)) ↔
      (t.TeamIDs = [] ∨
        ((∀ x, t.TeamIDs.get? 3 = some x → TrimSpace x = []) ∧
          (∀ y, t.TeamIDs.get? 0 = some y → TrimSpace y = [])))) ∧
    (∀ id e, t.TeamIDAuto = some (id, some e) → id = []) ∧
    (∀ id, t.TeamIDAuto = some (id, none) → Trimmed id) := by
  have hnf := json_teamIDAuto_nf t
  cases h0 : t.TeamIDs.get? 0 with
  | none =>
    have hnil : t.TeamIDs = [] := by
      cases hT : t.TeamIDs with
      | nil => rfl
      | cons y ys => rw [hT] at h0; simp at h0
    have h3 : t.TeamIDs.get? 3 = none := by rw [hnil]; rfl
    rw [h0] at hnf
    dsimp only at hnf
    rw [hnf, h3]
    simp [hnil]
  | some y =>
    have hne : t.TeamIDs ≠ [] := by
      intro e
      rw [e] at h0
      simp at h0
    rw [h0] at hnf
    dsimp only at hnf
    cases h3 : t.TeamIDs.get? 3 with
    | none =>
      rw [h3] at hnf
      dsimp only at hnf
      by_cases hy : TrimSpace y = []
      · rw [if_neg (not_not.2 hy)] at hnf
        rw [hnf]
        simp [hne, hy]
      · rw [if_pos hy] at hnf
        rw [hnf]
        simp [hne, hy, trimmed_TrimSpace y hy]
    | some x =>
      rw [h3] at hnf
      dsimp only at hnf
      by_cases hx : TrimSpace x = []
      · rw [if_neg (not_not.2 hx)] at hnf
        by_cases hy : TrimSpace y = []
        · rw [if_neg (not_not.2 hy)] at hnf
          rw [hnf]
          simp [hne, hy, hx]
        · rw [if_pos hy] at hnf
          rw [hnf]
          simp [hne, hy, hx, trimmed_TrimSpace y hy]
      · rw [if_pos hx] at hnf
        rw [hnf]
        simp [hne, hx, trimmed_TrimSpace x hx]

/-- Witness for C18: four teams with a padded team at index 3. -/
theorem json_teamIDAuto_fixed_index_witness :
    Token.TeamIDAuto ⟨"acc".toList, "x".toList, "i".toList,
      ["a".toList, "b".toList, "c".toList, " ops ".toList]⟩ =
        some (TrimSpace " ops ".toList, none) :=
  (json_teamIDAuto_fixed_index ⟨"acc".toList, "x".toList, "i".toList,
    ["a".toList, "b".toList, "c".toList, " ops ".toList]⟩).2.1 " ops ".toList (by decide)
    (by decide)

end JsonStore
